import Mathlib

/-!
A shallow embedding of `Graph.h` and `Tree.h`.

`Graph<Key, T>` keeps a `std::map<Key, GraphNode*>`; the nodes live on the free
store and adjacency lists hold raw pointers to them.  The embedding keeps both
parts explicit: the map is an association list in key order whose values are
pointers (`none` is `nullptr`), and the free store is a list of cells indexed
by address (`none` is a cell that was deleted).  In the graph `new` is free
to hand out again the address of a cell that was deleted: the call that
allocates takes the allocator's choice as an argument, and what is proved
about it is proved for every choice.  An operation that dereferences a null or
deleted pointer has no defined result and returns `none`.  Results of type `int` (`size()`, `depth()`) are natural numbers; the
range of `int` is not modelled.

`Tree<T>` owns its nodes through the `children` vectors, so a tree is an
inductive value; a pointer to a node of the tree is the path of child indices
from the root to it.
-/

namespace GraphModel

/-- A node of the graph (`class GraphNode`): key, value and the adjacency
list `std::vector<GraphNode*> adj`, a list of addresses. -/
structure GraphNode (Key T : Type) where
  id : Key
  data : T
  adj : List Nat
deriving DecidableEq, Repr

/-- The graph (`class Graph`): `nodes` is the `std::map<Key, GraphNode*>`
(entries in increasing key order, `none` for a null pointer) and `heap` is the
free store that holds the nodes the pointers refer to. -/
structure Graph (Key T : Type) where
  nodes : List (Key × Option Nat)
  heap : List (Option (GraphNode Key T))
deriving DecidableEq, Repr

section MapOps

variable {Key : Type} [LinearOrder Key]

/-- Read-only lookup in the map (`std::map::find`); like every operation of
`std::map` it locates the key through `<` alone. -/
def mapFind : List (Key × Option Nat) → Key → Option (Option Nat)
  | [], _ => none
  | (k, v) :: rest, key =>
    if key < k then none
    else if k < key then mapFind rest key
    else some v

/-- The map after `nodes[key]` was evaluated (`std::map::operator[]`): a key
that has no entry gets one holding a value-initialised pointer, `nullptr`. -/
def mapTouch : List (Key × Option Nat) → Key → List (Key × Option Nat)
  | [], key => [(key, none)]
  | (k, v) :: rest, key =>
    if key < k then (key, none) :: (k, v) :: rest
    else if k < key then (k, v) :: mapTouch rest key
    else (k, v) :: rest

/-- The pointer that `nodes[key]` yields: the stored one, or `nullptr` for a
key that had no entry. -/
def mapRead (m : List (Key × Option Nat)) (key : Key) : Option Nat :=
  (mapFind m key).join

/-- The map after `nodes[key] = p`. -/
def mapAssign : List (Key × Option Nat) → Key → Option Nat → List (Key × Option Nat)
  | [], key, p => [(key, p)]
  | (k, v) :: rest, key, p =>
    if key < k then (key, p) :: (k, v) :: rest
    else if k < key then (k, v) :: mapAssign rest key p
    else (k, p) :: rest

/-- The map after `nodes.erase(key)`. -/
def mapErase : List (Key × Option Nat) → Key → List (Key × Option Nat)
  | [], _ => []
  | (k, v) :: rest, key =>
    if key < k then (k, v) :: rest
    else if k < key then (k, v) :: mapErase rest key
    else rest

end MapOps

section HeapOps

variable {Key T : Type}

/-- Dereference of a pointer: the node in cell `p`, if that cell is live. -/
def deref (heap : List (Option (GraphNode Key T))) (p : Nat) : Option (GraphNode Key T) :=
  heap[p]?.join

/-- The free store after `p->adj` was replaced by `f (p->adj)`; undefined when
`p` does not point to a live node. -/
def updateAdj (heap : List (Option (GraphNode Key T))) (p : Nat)
    (f : List Nat → List Nat) : Option (List (Option (GraphNode Key T))) :=
  match deref heap p with
  | none => none
  | some node => some (heap.set p (some { node with adj := f node.adj }))

/-- The free store after `delete p`; undefined when `p` is not live. -/
def free (heap : List (Option (GraphNode Key T))) (p : Nat) :
    Option (List (Option (GraphNode Key T))) :=
  match deref heap p with
  | none => none
  | some _ => some (heap.set p none)

/-- The address that `new` returns: a cell that holds no live node.  The
allocator may hand out again a cell that was deleted or take one that was never
used; `pick` is its choice, the address `pick` when that cell was deleted and
the next unused address otherwise. -/
def allocate (heap : List (Option (GraphNode Key T))) (pick : Nat) : Nat :=
  match heap[pick]? with
  | some none => pick
  | _ => heap.length

/-- The free store after `new` constructed `node` at the address `p` that
`allocate` returned. -/
def construct (heap : List (Option (GraphNode Key T))) (p : Nat)
    (node : GraphNode Key T) : List (Option (GraphNode Key T)) :=
  if p < heap.length then heap.set p (some node) else heap ++ [some node]

end HeapOps

/-- How a run of the `while` loop of `bfs` ends when it is given a bound on the
number of iterations. -/
inductive LoopResult (α : Type) where
  /-- The loop left through its test; the value is what was computed. -/
  | done (a : α)
  /-- A null or deleted pointer was dereferenced. -/
  | undefined
  /-- The bound was used up before the loop ended. -/
  | unfinished
deriving DecidableEq, Repr

namespace Graph

variable {Key T : Type} [LinearOrder Key]

/-- Constructor `Graph(id, data)`: `nodes[id] = new GraphNode(id, data)`. -/
def init (id : Key) (data : T) : Graph Key T :=
  { nodes := [(id, some 0)], heap := [some { id := id, data := data, adj := [] }] }

/-- Method `size()`: `nodes.size()`, the number of entries of the map. -/
def size (g : Graph Key T) : Nat := g.nodes.length

/-- Method `isEmpty()`: `nodes.empty()`. -/
def isEmpty (g : Graph Key T) : Bool := g.nodes.isEmpty

/-- The keys that have an entry in the map, in order. -/
def keys (g : Graph Key T) : List Key := g.nodes.map Prod.fst

/-- Method `addVertex(id, data)`: `if (!nodes[id]) nodes[id] = new GraphNode(id, data)`.
The argument `pick` is the allocator's choice for the `new`, should it run. -/
def addVertex (g : Graph Key T) (pick : Nat) (id : Key) (data : T) : Graph Key T :=
  let nodes1 := mapTouch g.nodes id
  match mapRead nodes1 id with
  | some _ => { g with nodes := nodes1 }
  | none =>
    { nodes := mapAssign nodes1 id (some (allocate g.heap pick)),
      heap := construct g.heap (allocate g.heap pick) { id := id, data := data, adj := [] } }

/-- Method `addEdge(src, dest)`.  The test `!nodes[src] || !nodes[dest]`
evaluates `nodes[src]` first and `nodes[dest]` only when the first pointer is
not null; then each node gets the other pushed at the back of its list. -/
def addEdge (g : Graph Key T) (src dest : Key) : Option (Graph Key T) :=
  let nodes1 := mapTouch g.nodes src
  match mapRead nodes1 src with
  | none => some { g with nodes := nodes1 }
  | some ps =>
    let nodes2 := mapTouch nodes1 dest
    match mapRead nodes2 dest with
    | none => some { g with nodes := nodes2 }
    | some pd =>
      (updateAdj g.heap ps (fun adj => adj ++ [pd])).bind fun heap1 =>
      (updateAdj heap1 pd (fun adj => adj ++ [ps])).bind fun heap2 =>
      some { nodes := nodes2, heap := heap2 }

/-- Method `removeEdge(src, dest)`: after the same test as in `addEdge`,
`std::find` locates the first occurrence of the other node's pointer in each
list and `erase(it)` removes that one element. -/
def removeEdge (g : Graph Key T) (src dest : Key) : Option (Graph Key T) :=
  let nodes1 := mapTouch g.nodes src
  match mapRead nodes1 src with
  | none => some { g with nodes := nodes1 }
  | some ps =>
    let nodes2 := mapTouch nodes1 dest
    match mapRead nodes2 dest with
    | none => some { g with nodes := nodes2 }
    | some pd =>
      (updateAdj g.heap ps (fun adj => adj.erase pd)).bind fun heap1 =>
      (updateAdj heap1 pd (fun adj => adj.erase ps)).bind fun heap2 =>
      some { nodes := nodes2, heap := heap2 }

/-- The loop `for (auto& node : nodes)` of `removeVertex`: for each entry of the
map, in order, the first occurrence of `target` is erased from
`node.second->adj`.  An entry whose pointer is null makes `node.second->adj`
a null dereference. -/
def purgeLoop (target : Nat) :
    List (Key × Option Nat) → List (Option (GraphNode Key T)) →
      Option (List (Option (GraphNode Key T)))
  | [], heap => some heap
  | (_, none) :: _, _ => none
  | (_, some q) :: rest, heap =>
    (updateAdj heap q (fun adj => adj.erase target)).bind fun heap1 =>
    purgeLoop target rest heap1

/-- Method `removeVertex(id)`: return when `nodes[id]` is null, else run the
loop over all entries, `delete nodes[id]` and `nodes.erase(id)`. -/
def removeVertex (g : Graph Key T) (id : Key) : Option (Graph Key T) :=
  let nodes1 := mapTouch g.nodes id
  match mapRead nodes1 id with
  | none => some { g with nodes := nodes1 }
  | some p =>
    (purgeLoop p nodes1 g.heap).bind fun heap1 =>
    (free heap1 p).bind fun heap2 =>
    some { nodes := mapErase nodes1 id, heap := heap2 }

/-- The loop `for (auto& neighbor : curr->adj)` of `bfs`, on the pair of
`visited` and the queue.  `visited` is the list of the pointers that the
`std::map<GraphNode*, bool>` maps to `true`: `visited[neighbor]` creates a
`false` entry only on the path that sets it to `true` at once.  A neighbour
that is not visited is marked and pushed at the back of the queue. -/
def visitNeighbours : List Nat → List Nat × List Nat → List Nat × List Nat
  | [], state => state
  | neighbor :: rest, (visited, q) =>
    if neighbor ∈ visited then visitNeighbours rest (visited, q)
    else visitNeighbours rest (neighbor :: visited, q ++ [neighbor])

/-- The loop `while (!q.empty())` of `bfs` with at most `fuel` evaluations of
its test: `curr = q.front()`, `curr->data` is written to the output, the front
is popped and the neighbours are visited. -/
def bfsLoop (heap : List (Option (GraphNode Key T))) :
    Nat → List Nat → List Nat → List T → LoopResult (List T)
  | 0, _, _, _ => LoopResult.unfinished
  | _ + 1, [], _, out => LoopResult.done out
  | fuel + 1, curr :: q, visited, out =>
    match deref heap curr with
    | none => LoopResult.undefined
    | some node =>
      bfsLoop heap fuel (visitNeighbours node.adj (visited, q)).2
        (visitNeighbours node.adj (visited, q)).1 (out ++ [node.data])

/-- Method `bfs(startId)` with a bound on the iterations of its loop: the graph
afterwards (the test `!nodes[startId]` goes through `operator[]`) and the
values written to `std::cout`, in order. -/
def bfsWith (fuel : Nat) (g : Graph Key T) (startId : Key) :
    LoopResult (Graph Key T × List T) :=
  let nodes1 := mapTouch g.nodes startId
  match mapRead nodes1 startId with
  | none => LoopResult.done ({ g with nodes := nodes1 }, [])
  | some ps =>
    match bfsLoop g.heap fuel [ps] [ps] [] with
    | LoopResult.done out => LoopResult.done ({ g with nodes := nodes1 }, out)
    | LoopResult.undefined => LoopResult.undefined
    | LoopResult.unfinished => LoopResult.unfinished

/-- Method `bfs(startId)`.  Every iteration of the loop dereferences a pointer
that was not dequeued before, so a bound one above the number of cells of the
free store is never used up (`bfsLoop_finishes`). -/
def bfs (g : Graph Key T) (startId : Key) : LoopResult (Graph Key T × List T) :=
  bfsWith (g.heap.length + 1) g startId

/-- Whether `key` is a vertex of the graph: the map has a non-null pointer for it. -/
def hasVertex (g : Graph Key T) (key : Key) : Bool :=
  (mapRead g.nodes key).isSome

/-- The adjacency list of the vertex stored under `key`, when there is one. -/
def adjOf (g : Graph Key T) (key : Key) : Option (List Nat) :=
  (mapRead g.nodes key).bind fun p => (deref g.heap p).map fun node => node.adj

/-- The value of the vertex stored under `key`, when there is one. -/
def dataOf (g : Graph Key T) (key : Key) : Option T :=
  (mapRead g.nodes key).bind fun p => (deref g.heap p).map fun node => node.data

/-- A call of one of the public methods that can change the graph; a call of
`addVertex` comes with the allocator's choice. -/
inductive Op (Key T : Type) where
  | addVertex (pick : Nat) (id : Key) (data : T)
  | addEdge (src dest : Key)
  | removeEdge (src dest : Key)
  | removeVertex (id : Key)
  | bfs (startId : Key)
deriving DecidableEq, Repr

/-- The graph after one call; `none` when the call has no defined result. -/
def step (g : Graph Key T) : Op Key T → Option (Graph Key T)
  | Op.addVertex pick id data => some (addVertex g pick id data)
  | Op.addEdge src dest => addEdge g src dest
  | Op.removeEdge src dest => removeEdge g src dest
  | Op.removeVertex id => removeVertex g id
  | Op.bfs startId =>
    match bfs g startId with
    | LoopResult.done r => some r.1
    | _ => none

/-- The graph after a sequence of calls, first call first. -/
def run (g : Graph Key T) : List (Op Key T) → Option (Graph Key T)
  | [] => some g
  | op :: ops => (step g op).bind fun g1 => run g1 ops

/-- A graph state that the constructor followed by some sequence of calls
produces. -/
def Reachable (g : Graph Key T) : Prop :=
  ∃ (id : Key) (data : T) (ops : List (Op Key T)), run (init id data) ops = some g

/-- What every reachable graph state satisfies: the map is in key order, its
non-null pointers refer to live nodes and no two keys share a node.  (Adjacency
lists are not part of it: `removeVertex` can leave the address of the deleted
node in a list, and a later `new` can hand that address out again.) -/
structure Inv (g : Graph Key T) : Prop where
  sorted : g.nodes.Pairwise fun x y => x.1 < y.1
  live : ∀ k p, mapRead g.nodes k = some p → ∃ node, deref g.heap p = some node
  inj : ∀ k1 k2 p, mapRead g.nodes k1 = some p → mapRead g.nodes k2 = some p → k1 = k2

/-- The node at address `q` is in the adjacency list of the live node at
address `p`. -/
def Edge (heap : List (Option (GraphNode Key T))) (p q : Nat) : Prop :=
  ∃ node, deref heap p = some node ∧ q ∈ node.adj

/-- The node at address `q` can be reached from the one at `p` through
adjacency lists, in any number of steps. -/
def Reach (heap : List (Option (GraphNode Key T))) (p q : Nat) : Prop :=
  Relation.ReflTransGen (Edge heap) p q

/-- A well-formed graph: every non-null pointer of the map refers to a live
node, and every entry of the adjacency list of such a node is a pointer that
the map holds under some key. -/
def wellFormed (g : Graph Key T) : Bool :=
  g.nodes.all fun e =>
    match e.2 with
    | none => true
    | some p =>
      match deref g.heap p with
      | none => false
      | some node => node.adj.all fun x => g.nodes.any fun e1 => e1.2 == some x

/-- The value stored in the node at address `p`, when that node is live. -/
def valueAt (heap : List (Option (GraphNode Key T))) (p : Nat) : Option T :=
  (deref heap p).map fun node => node.data

/-- What holds each time the `while` loop of `bfs` evaluates its test, with
`processed` the addresses dequeued so far, in order: their values are the
output, no address is dequeued or queued twice, the visited addresses are the
dequeued and the queued ones, all of them can be reached from the start `ps`,
every neighbour of a dequeued node is visited, the start comes first, and the
dequeued addresses are cells of the free store. -/
structure BfsInv (heap : List (Option (GraphNode Key T))) (ps : Nat)
    (processed q visited : List Nat) (out : List T) : Prop where
  values : processed.map (valueAt heap) = out.map some
  nodup : (processed ++ q).Nodup
  visited_iff : ∀ x, x ∈ visited ↔ x ∈ processed ∨ x ∈ q
  reach : ∀ x ∈ visited, Reach heap ps x
  closed : ∀ x ∈ processed, ∀ y, Edge heap x y → y ∈ visited
  head : (processed ++ q).head? = some ps
  liveDone : ∀ x ∈ processed, x < heap.length

/-- There is a walk of `n` edges from the node at `p` to the node at `q`. -/
inductive Walk (heap : List (Option (GraphNode Key T))) (p : Nat) : Nat → Nat → Prop where
  | refl : Walk heap p p 0
  | tail {q r n : Nat} : Walk heap p q n → Edge heap q r → Walk heap p r (n + 1)

/-- The shortest-path distance from `p` to `q`, in edges, is `d`: some walk
has `d` edges and none has fewer. -/
def IsDist (heap : List (Option (GraphNode Key T))) (p q d : Nat) : Prop :=
  Walk heap p q d ∧ ∀ n, Walk heap p q n → d ≤ n

/-- What holds in addition each time the loop of `bfs` evaluates its test, for
a level `lv x` of every visited node `x`: the start has level 0, levels do not
go down along the dequeued nodes followed by the queue, no queued node lies
more than one level above the front of the queue, a walk of `lv x` edges leads
from the start to `x`, and a neighbour of a dequeued node lies at most one
level above it. -/
structure BfsLevels (heap : List (Option (GraphNode Key T))) (ps : Nat)
    (processed q visited : List Nat) (lv : Nat → Nat) : Prop where
  start : lv ps = 0
  sorted : (processed ++ q).Pairwise fun u v => lv u ≤ lv v
  window : ∀ h, q.head? = some h → ∀ x ∈ q, lv x ≤ lv h + 1
  walk : ∀ x ∈ visited, Walk heap ps x (lv x)
  edgeBound : ∀ x ∈ processed, ∀ y, Edge heap x y → lv y ≤ lv x + 1

/-- The graphs `g` and `g1` differ at most in the adjacency lists of the nodes
at the addresses `pa` and `pb`: same map (so same `size()` and same keys), same
value in every node and under every key, and every other cell of the free
store, and so the adjacency list under every key that points elsewhere, is the
same. -/
def SameExceptAdj (g g1 : Graph Key T) (pa pb : Nat) : Prop :=
  g1.nodes = g.nodes ∧ size g1 = size g ∧ isEmpty g1 = isEmpty g ∧ keys g1 = keys g ∧
  (∀ q, valueAt g1.heap q = valueAt g.heap q) ∧
  (∀ k, dataOf g1 k = dataOf g k) ∧
  (∀ q, q ≠ pa → q ≠ pb → deref g1.heap q = deref g.heap q) ∧
  ∀ k q, mapRead g.nodes k = some q → q ≠ pa → q ≠ pb → adjOf g1 k = adjOf g k

/-- The graph after `Graph(1, "a")` and `addEdge(2, 1)`: key 2 has an entry
that holds the null pointer. -/
def nullEntryGraph : Graph Nat String :=
  { nodes := [(1, some 0), (2, none)],
    heap := [some { id := 1, data := "a", adj := [] }] }

/-- The graph after `Graph(1, "a")`, `addVertex(2, "b")`, `addEdge(1, 2)` twice
and `removeVertex(2)`: the list of vertex 1 holds the address of the deleted
node. -/
def danglingGraph : Graph Nat String :=
  { nodes := [(1, some 0)],
    heap := [some { id := 1, data := "a", adj := [1] }, none] }

/-- The graph after `Graph(1, "a")`, `addVertex(2, "b")`, `addEdge(1, 2)` twice,
`removeVertex(2)` and `addVertex(3, "c")`, when `new` hands the address of the
deleted node to vertex 3: the list of vertex 1 holds the address of vertex 3,
whose own list is empty. -/
def reuseGraph : Graph Nat String :=
  { nodes := [(1, some 0), (3, some 1)],
    heap := [some { id := 1, data := "a", adj := [1] },
             some { id := 3, data := "c", adj := [] }] }

/-- The driver's graph before any edge: `Graph(1, "Node1")` and vertices 2, 3, 4.
No node was deleted, so the allocator's choices play no part. -/
def demoVertices : Graph Nat String :=
  { nodes := [(1, some 0), (2, some 1), (3, some 2), (4, some 3)],
    heap := [some { id := 1, data := "Node1", adj := [] },
             some { id := 2, data := "Node2", adj := [] },
             some { id := 3, data := "Node3", adj := [] },
             some { id := 4, data := "Node4", adj := [] }] }

/-- The calls `addEdge(1, 2)`, `addEdge(1, 3)`, `addEdge(2, 4)`, `addEdge(3, 4)`. -/
def demoEdges : List (Op Nat String) :=
  [Op.addEdge 1 2, Op.addEdge 1 3, Op.addEdge 2 4, Op.addEdge 3 4]

/-- The driver's graph once the four edges are there. -/
def demoGraph : Graph Nat String :=
  { nodes := [(1, some 0), (2, some 1), (3, some 2), (4, some 3)],
    heap := [some { id := 1, data := "Node1", adj := [1, 2] },
             some { id := 2, data := "Node2", adj := [0, 3] },
             some { id := 3, data := "Node3", adj := [0, 3] },
             some { id := 4, data := "Node4", adj := [1, 2] }] }

/-- The driver's graph after `removeVertex(3)`. -/
def demoGraphWithout3 : Graph Nat String :=
  { nodes := [(1, some 0), (2, some 1), (4, some 3)],
    heap := [some { id := 1, data := "Node1", adj := [1] },
             some { id := 2, data := "Node2", adj := [0, 3] },
             none,
             some { id := 4, data := "Node4", adj := [1] }] }

end Graph

end GraphModel

namespace TreeModel

/-- A node of the tree (`class TreeNode`): its value and the ordered sequence
of the children it owns.  A `TreeNode<T>*` that points into a tree is
represented by the path of child indices that leads from the root to the node;
the `parent` pointer of the node at path `p ++ [i]` is the node at `p`, and
that of the root, at path `[]`, is null. -/
inductive TreeNode (T : Type) where
  | mk (data : T) (children : List (TreeNode T))
deriving Repr

namespace TreeNode

variable {T : Type}

/-- Field `data`. -/
def data : TreeNode T → T
  | mk d _ => d

/-- Field `children`. -/
def children : TreeNode T → List (TreeNode T)
  | mk _ cs => cs

/-- Method `isLeaf()`: `children.empty()`. -/
def isLeaf (node : TreeNode T) : Bool := node.children.isEmpty

/-- Method `addChild(data)`: a new node with no children is pushed at the back
of `children`. -/
def addChild (node : TreeNode T) (data : T) : TreeNode T :=
  mk node.data (node.children ++ [mk data []])

mutual
/-- Function `Tree::countNodes` on a non-null node: `count` starts at 1 and the
loop adds `countNodes(child)` for each child. -/
def countNodes : TreeNode T → Nat
  | mk _ children => countLoop children 1
/-- The loop `for (child : node->children) count += countNodes(child)`. -/
def countLoop : List (TreeNode T) → Nat → Nat
  | [], count => count
  | child :: rest, count => countLoop rest (count + countNodes child)
end

mutual
/-- Function `Tree::computeDepth` on a non-null node: `maxDepth` starts at
`currentDepth` and the loop takes the maximum with
`computeDepth(child, currentDepth + 1)` for each child. -/
def computeDepth : TreeNode T → Nat → Nat
  | mk _ children, currentDepth => depthLoop children currentDepth currentDepth
/-- The loop `for (child : node->children) maxDepth = std::max(...)`. -/
def depthLoop : List (TreeNode T) → Nat → Nat → Nat
  | [], _, maxDepth => maxDepth
  | child :: rest, currentDepth, maxDepth =>
    depthLoop rest currentDepth (max maxDepth (computeDepth child (currentDepth + 1)))
end

/-- The node that the path leads to, starting at `node`. -/
def nodeAt : TreeNode T → List Nat → Option (TreeNode T)
  | node, [] => some node
  | mk _ cs, i :: rest =>
    match cs[i]? with
    | none => none
    | some child => nodeAt child rest

/-- The subtree after the node that the path leads to was replaced by `f` of
it; `none` when the path leads to no node. -/
def modifyAt (f : TreeNode T → TreeNode T) : TreeNode T → List Nat → Option (TreeNode T)
  | node, [] => some (f node)
  | mk d cs, i :: rest =>
    match cs[i]? with
    | none => none
    | some child => (modifyAt f child rest).map fun child1 => mk d (cs.set i child1)

end TreeNode

/-- The tree (`class Tree`): the `root` pointer, `none` when it is null. -/
structure Tree (T : Type) where
  root : Option (TreeNode T)
deriving Repr

namespace Tree

variable {T : Type}

/-- Constructor `Tree(rootData)`: `root(new TreeNode<T>(rootData))`. -/
def init (rootData : T) : Tree T := { root := some (TreeNode.mk rootData []) }

/-- Method `isEmpty()`: `root == nullptr`. -/
def isEmpty (t : Tree T) : Bool := t.root.isNone

/-- Method `size()`: `countNodes(root)`, which is 0 for a null root. -/
def size (t : Tree T) : Nat :=
  match t.root with
  | none => 0
  | some r => r.countNodes

/-- Method `depth()`: `computeDepth(root, 0)`, which is `currentDepth`, 0, for a
null root. -/
def depth (t : Tree T) : Nat :=
  match t.root with
  | none => 0
  | some r => r.computeDepth 0

/-- The node of the tree that a pointer (a path from the root) refers to. -/
def nodeAt (t : Tree T) (path : List Nat) : Option (TreeNode T) :=
  t.root.bind fun r => r.nodeAt path

/-- The call `node->addChild(data)` on a node of the tree: the tree afterwards
and the pointer to the new child that the call returns.  Undefined when `node`
refers to no node of the tree. -/
def addChild (t : Tree T) (node : List Nat) (data : T) : Option (Tree T × List Nat) :=
  match t.nodeAt node with
  | none => none
  | some target =>
    (t.root.bind fun r => r.modifyAt (fun n => n.addChild data) node).map fun r1 =>
      ({ root := some r1 }, node ++ [target.children.length])

/-- Method `insertAsChild(parent, data)`: `parent->addChild(data)`. -/
def insertAsChild (t : Tree T) (parent : List Nat) (data : T) : Option (Tree T) :=
  (t.addChild parent data).map Prod.fst

/-- A call that adds a child: `node->addChild(data)` or
`tree.insertAsChild(parent, data)`. -/
inductive Call (T : Type) where
  | addChild (node : List Nat) (data : T)
  | insertAsChild (parent : List Nat) (data : T)
deriving Repr

/-- The node that a call adds the child to. -/
def Call.target : Call T → List Nat
  | Call.addChild node _ => node
  | Call.insertAsChild parent _ => parent

/-- The tree after one call. -/
def call (t : Tree T) : Call T → Option (Tree T)
  | Call.addChild node data => (t.addChild node data).map Prod.fst
  | Call.insertAsChild parent data => t.insertAsChild parent data

/-- The tree after a sequence of calls, first call first. -/
def calls (t : Tree T) : List (Call T) → Option (Tree T)
  | [] => some t
  | c :: cs => (t.call c).bind fun t1 => calls t1 cs

/-- Method `getRoot()`: the `root` pointer, which is null for an empty tree and
the empty path otherwise. -/
def getRoot (t : Tree T) : Option (List Nat) := t.root.map fun _ => []

/-- The statement `parentNode->children.erase(it)` of `deleteNode`, where
`std::find` has located the node at position `i` of the child sequence. -/
def eraseChild (i : Nat) (parentNode : TreeNode T) : TreeNode T :=
  TreeNode.mk parentNode.data (parentNode.children.eraseIdx i)

/-- Method `deleteNode(node)`; `none` as argument is the null pointer.  A null
pointer is a no-op.  A node without parent, the root, makes the tree empty.
Any other node, at `parent ++ [i]`, is erased from the child sequence of its
parent and destroyed with all that it owns.  Undefined when the pointer refers
to no node of the tree. -/
def deleteNode (t : Tree T) : Option (List Nat) → Option (Tree T)
  | none => some t
  | some path =>
    match t.nodeAt path with
    | none => none
    | some _ =>
      match path.getLast? with
      | none => some { root := none }
      | some i =>
        (t.root.bind fun r => r.modifyAt (eraseChild i) path.dropLast).map fun r1 =>
          { root := some r1 }

/-- The loop `while (!current->isLeaf())` of `insertRandom` with at most `fuel`
evaluations of its test: `current` is the path of the node reached so far and
`rand calls` is what the next call of `rand()` returns; the loop moves to the
child at index `rand() % current->children.size()`. -/
def descendLoop (r : TreeNode T) (rand : Nat → Nat) :
    Nat → List Nat → Nat → GraphModel.LoopResult (List Nat)
  | 0, _, _ => GraphModel.LoopResult.unfinished
  | fuel + 1, current, calls =>
    match r.nodeAt current with
    | none => GraphModel.LoopResult.undefined
    | some node =>
      if node.isLeaf then GraphModel.LoopResult.done current
      else descendLoop r rand fuel
        (current ++ [rand calls % node.children.length]) (calls + 1)

/-- Method `insertRandom(data)` with a bound on the iterations of its loop;
`rand` lists what the calls of `rand()` return, in order.  With a null `root`
the first `current->isLeaf()` dereferences a null pointer. -/
def insertRandomWith (fuel : Nat) (t : Tree T) (rand : Nat → Nat) (data : T) :
    GraphModel.LoopResult (Tree T) :=
  match t.root with
  | none => GraphModel.LoopResult.undefined
  | some r =>
    match descendLoop r rand fuel [] 0 with
    | GraphModel.LoopResult.done leaf =>
      match t.addChild leaf data with
      | some (t1, _) => GraphModel.LoopResult.done t1
      | none => GraphModel.LoopResult.undefined
    | GraphModel.LoopResult.undefined => GraphModel.LoopResult.undefined
    | GraphModel.LoopResult.unfinished => GraphModel.LoopResult.unfinished

/-- Method `insertRandom(data)`.  Every iteration of the loop goes one level
down, so a bound one above the depth of the tree is never used up. -/
def insertRandom (t : Tree T) (rand : Nat → Nat) (data : T) :
    GraphModel.LoopResult (Tree T) :=
  insertRandomWith (t.depth + 1) t rand data

/-- The tree of the specification's scenario: a root with `Child1` and
`Child2`, and two children below `Child1`. -/
def scenarioTree : Tree String :=
  { root := some (TreeNode.mk "Root"
      [TreeNode.mk "Child1" [TreeNode.mk "GrandChild1" [], TreeNode.mk "GrandChild2" []],
       TreeNode.mk "Child2" []]) }

end Tree

end TreeModel

/-!
The pointer-level view of `Tree.h`, for what is said about `parent`
back-references and about sharing: nodes live in a free store as for the
graph, `children` holds addresses and `parent` an address or null, and
`delete` runs the destructor, which deletes the children first.  Here `new`
takes the next unused address: `deleteNode` leaves the address of a deleted
node in no live node, so handing a deleted cell out again would only give the
new node another name.
-/

namespace TreeHeap

/-- A node of the tree (`class TreeNode`) with its three fields. -/
structure TreeNode (T : Type) where
  data : T
  children : List Nat
  parent : Option Nat
deriving DecidableEq, Repr

/-- The tree (`class Tree`): the `root` pointer and the free store that holds
the nodes. -/
structure Tree (T : Type) where
  root : Option Nat
  heap : List (Option (TreeNode T))
deriving DecidableEq, Repr

variable {T : Type}

/-- Dereference of a pointer: the node in cell `p`, if that cell is live. -/
def deref (heap : List (Option (TreeNode T))) (p : Nat) : Option (TreeNode T) :=
  heap[p]?.join

/-- A loop over a list of pointers that runs `f` on each, in order, and stops
at the first run that does not end well. -/
def foldHeap (f : List (Option (TreeNode T)) → Nat →
      GraphModel.LoopResult (List (Option (TreeNode T)))) :
    List (Option (TreeNode T)) → List Nat →
      GraphModel.LoopResult (List (Option (TreeNode T)))
  | heap, [] => GraphModel.LoopResult.done heap
  | heap, c :: rest =>
    match f heap c with
    | GraphModel.LoopResult.done heap1 => foldHeap f heap1 rest
    | GraphModel.LoopResult.undefined => GraphModel.LoopResult.undefined
    | GraphModel.LoopResult.unfinished => GraphModel.LoopResult.unfinished

/-- The statement `delete p` on a node: the destructor `~TreeNode` runs
`delete child` for each child, in order, and then the cell is freed.  `fuel`
bounds the depth of the recursion; deleting a pointer that is not live is
undefined. -/
def destroy : Nat → List (Option (TreeNode T)) → Nat →
    GraphModel.LoopResult (List (Option (TreeNode T)))
  | 0, _, _ => GraphModel.LoopResult.unfinished
  | fuel + 1, heap, p =>
    match deref heap p with
    | none => GraphModel.LoopResult.undefined
    | some node =>
      match foldHeap (destroy fuel) heap node.children with
      | GraphModel.LoopResult.done heap1 => GraphModel.LoopResult.done (heap1.set p none)
      | GraphModel.LoopResult.undefined => GraphModel.LoopResult.undefined
      | GraphModel.LoopResult.unfinished => GraphModel.LoopResult.unfinished

namespace Tree

/-- Constructor `Tree(rootData)`: a root without children and without parent. -/
def init (rootData : T) : Tree T :=
  { root := some 0, heap := [some { data := rootData, children := [], parent := none }] }

/-- Method `isEmpty()`: `root == nullptr`. -/
def isEmpty (t : Tree T) : Bool := t.root.isNone

/-- The call `node->addChild(data)`: a new node is allocated, its `parent` is
set to `node`, and it is pushed at the back of `node->children`; the result
holds the pointer to the child.  Undefined when `node` is not live. -/
def addChild (t : Tree T) (node : Nat) (data : T) : Option (Tree T × Nat) :=
  match deref t.heap node with
  | none => none
  | some n =>
    some ({ root := t.root,
            heap := t.heap.set node (some { n with children := n.children ++ [t.heap.length] })
              ++ [some { data := data, children := [], parent := some node }] },
          t.heap.length)

/-- Method `insertAsChild(parent, data)`: `parent->addChild(data)`. -/
def insertAsChild (t : Tree T) (parent : Nat) (data : T) : Option (Tree T) :=
  (t.addChild parent data).map Prod.fst

/-- The loop `while (!current->isLeaf())` of `insertRandom` with at most `fuel`
evaluations of its test; `rand calls` is what the next `rand()` returns. -/
def descend (heap : List (Option (TreeNode T))) (rand : Nat → Nat) :
    Nat → Nat → Nat → GraphModel.LoopResult Nat
  | 0, _, _ => GraphModel.LoopResult.unfinished
  | fuel + 1, current, calls =>
    match deref heap current with
    | none => GraphModel.LoopResult.undefined
    | some node =>
      if node.children.isEmpty then GraphModel.LoopResult.done current
      else
        match node.children[rand calls % node.children.length]? with
        | none => GraphModel.LoopResult.undefined
        | some next => descend heap rand fuel next (calls + 1)

/-- Method `insertRandom(data)` with a bound on the iterations of its loop. -/
def insertRandomWith (fuel : Nat) (t : Tree T) (rand : Nat → Nat) (data : T) :
    GraphModel.LoopResult (Tree T) :=
  match t.root with
  | none => GraphModel.LoopResult.undefined
  | some r =>
    match descend t.heap rand fuel r 0 with
    | GraphModel.LoopResult.done leaf =>
      match t.addChild leaf data with
      | some (t1, _) => GraphModel.LoopResult.done t1
      | none => GraphModel.LoopResult.undefined
    | GraphModel.LoopResult.undefined => GraphModel.LoopResult.undefined
    | GraphModel.LoopResult.unfinished => GraphModel.LoopResult.unfinished

/-- Method `insertRandom(data)`; the bound is one above the number of cells of
the free store. -/
def insertRandom (t : Tree T) (rand : Nat → Nat) (data : T) :
    GraphModel.LoopResult (Tree T) :=
  insertRandomWith (t.heap.length + 1) t rand data

/-- Method `deleteNode(node)` with a bound on the depth of the destructor's
recursion; `none` as argument is the null pointer.  For a node without parent:
`delete root; root = nullptr`.  Otherwise `std::find` looks for the node in
`parentNode->children`, and when it is there, that element is erased and the
node is deleted. -/
def deleteNodeWith (fuel : Nat) (t : Tree T) : Option Nat → GraphModel.LoopResult (Tree T)
  | none => GraphModel.LoopResult.done t
  | some node =>
    match deref t.heap node with
    | none => GraphModel.LoopResult.undefined
    | some n =>
      match n.parent with
      | none =>
        match t.root with
        | none => GraphModel.LoopResult.done { root := none, heap := t.heap }
        | some r =>
          match destroy fuel t.heap r with
          | GraphModel.LoopResult.done heap1 =>
            GraphModel.LoopResult.done { root := none, heap := heap1 }
          | GraphModel.LoopResult.undefined => GraphModel.LoopResult.undefined
          | GraphModel.LoopResult.unfinished => GraphModel.LoopResult.unfinished
      | some parentNode =>
        match deref t.heap parentNode with
        | none => GraphModel.LoopResult.undefined
        | some pn =>
          if node ∈ pn.children then
            match destroy fuel
                (t.heap.set parentNode (some { pn with children := pn.children.erase node }))
                node with
            | GraphModel.LoopResult.done heap1 =>
              GraphModel.LoopResult.done { root := t.root, heap := heap1 }
            | GraphModel.LoopResult.undefined => GraphModel.LoopResult.undefined
            | GraphModel.LoopResult.unfinished => GraphModel.LoopResult.unfinished
          else GraphModel.LoopResult.done t

/-- Method `deleteNode(node)`; the bound is one above the number of cells of
the free store. -/
def deleteNode (t : Tree T) (node : Option Nat) : GraphModel.LoopResult (Tree T) :=
  deleteNodeWith (t.heap.length + 1) t node

/-- A call of one of the operations that change the tree. -/
inductive Call (T : Type) where
  | addChild (node : Nat) (data : T)
  | insertAsChild (parent : Nat) (data : T)
  | insertRandom (rand : Nat → Nat) (data : T)
  | deleteNode (node : Option Nat)

/-- The tree after one call; `none` when the call has no defined result, as
for a call on a pointer that refers to no node. -/
def step (t : Tree T) : Call T → Option (Tree T)
  | Call.addChild node data => (t.addChild node data).map Prod.fst
  | Call.insertAsChild parent data => t.insertAsChild parent data
  | Call.insertRandom rand data =>
    match t.insertRandom rand data with
    | GraphModel.LoopResult.done t1 => some t1
    | _ => none
  | Call.deleteNode node =>
    match t.deleteNode node with
    | GraphModel.LoopResult.done t1 => some t1
    | _ => none

/-- The tree after a sequence of calls, first call first. -/
def run (t : Tree T) : List (Call T) → Option (Tree T)
  | [] => some t
  | c :: cs => (step t c).bind fun t1 => run t1 cs

/-- A tree state that the constructor followed by some sequence of calls
produces. -/
def Reachable (t : Tree T) : Prop :=
  ∃ (rootData : T) (cs : List (Call T)), run (init rootData) cs = some t

end Tree

/-- The node at `c` is in the child sequence of the live node at `p`. -/
def ChildEdge (heap : List (Option (TreeNode T))) (p c : Nat) : Prop :=
  ∃ node, deref heap p = some node ∧ c ∈ node.children

/-- The node at `x` is the node at `p` or below it. -/
def Desc (heap : List (Option (TreeNode T))) (p x : Nat) : Prop :=
  Relation.ReflTransGen (ChildEdge heap) p x

/-- A proper tree: the root has a null parent and is the only live node that
has; every other live node has a live parent whose child sequence contains it,
and no other node's child sequence does; the entries of a child sequence are
live nodes whose parent is the owner of the sequence, each entry once, and
the root is in no child sequence; no node is below itself; and every live node
is the root or below it. -/
structure ProperTree (t : Tree T) : Prop where
  rootParent : ∀ r, t.root = some r → ∃ n, deref t.heap r = some n ∧ n.parent = none
  onlyRoot : ∀ p n, deref t.heap p = some n → n.parent = none → t.root = some p
  backRef : ∀ c nc, deref t.heap c = some nc → t.root ≠ some c →
    ∃ q nq, nc.parent = some q ∧ deref t.heap q = some nq ∧ c ∈ nq.children ∧
      ∀ q1 n1, deref t.heap q1 = some n1 → c ∈ n1.children → q1 = q
  childBack : ∀ p n c, deref t.heap p = some n → c ∈ n.children →
    ∃ nc, deref t.heap c = some nc ∧ nc.parent = some p
  once : ∀ p n, deref t.heap p = some n → n.children.Nodup
  rootNotChild : ∀ r, t.root = some r → ∀ p n, deref t.heap p = some n → r ∉ n.children
  acyclic : ∀ p, ¬ Relation.TransGen (ChildEdge t.heap) p p
  connected : ∀ r, t.root = some r → ∀ p n, deref t.heap p = some n → Desc t.heap r p

/-- What the operations keep, from which `ProperTree` follows: in addition to
the back-references in both directions, a child has a larger address than its
parent, and an empty tree has no live node. -/
structure TreeInv (t : Tree T) : Prop where
  rootLive : ∀ r, t.root = some r → ∃ n, deref t.heap r = some n ∧ n.parent = none
  onlyRoot : ∀ p n, deref t.heap p = some n → n.parent = none → t.root = some p
  childOf : ∀ p n c, deref t.heap p = some n → c ∈ n.children →
    ∃ nc, deref t.heap c = some nc ∧ nc.parent = some p
  parentOf : ∀ c nc q, deref t.heap c = some nc → nc.parent = some q →
    ∃ nq, deref t.heap q = some nq ∧ c ∈ nq.children
  nodup : ∀ p n, deref t.heap p = some n → n.children.Nodup
  mono : ∀ p c, ChildEdge t.heap p c → p < c
  empty : t.root = none → ∀ p, deref t.heap p = none

/-- The tree of the driver at pointer level: the root at address 0, `Child1`
and `Child2` at 1 and 2, the grandchildren at 3, 4 and 5. -/
def demoTree : Tree String :=
  { root := some 0,
    heap := [some { data := "Root", children := [1, 2], parent := none },
             some { data := "Child1", children := [3, 4], parent := some 0 },
             some { data := "Child2", children := [5], parent := some 0 },
             some { data := "GrandChild1", children := [], parent := some 1 },
             some { data := "GrandChild2", children := [], parent := some 1 },
             some { data := "GrandChild3", children := [], parent := some 2 }] }

/-- The tree of the driver at its end: after `insertRandom("RandomChild")`, with
`rand()` returning 0 every time (the new node, at address 6, goes below
`GrandChild1`), and `deleteNode(child2)`, which frees the cells 2 and 5. -/
def demoTreeEnd : Tree String :=
  { root := some 0,
    heap := [some { data := "Root", children := [1], parent := none },
             some { data := "Child1", children := [3, 4], parent := some 0 },
             none,
             some { data := "GrandChild1", children := [6], parent := some 1 },
             some { data := "GrandChild2", children := [], parent := some 1 },
             none,
             some { data := "RandomChild", children := [], parent := some 3 }] }

end TreeHeap

/-! ## Theorems about the graph -/

namespace GraphModel

section MapLemmas

variable {Key : Type} [LinearOrder Key]

theorem mapFind_mapTouch (m : List (Key × Option Nat)) (k key : Key) :
    mapFind (mapTouch m k) key =
      if key = k then some (mapRead m k) else mapFind m key := by
  induction m with
  | nil =>
    by_cases h : key = k
    · subst h; simp [mapTouch, mapFind, mapRead]
    · rcases lt_or_gt_of_ne h with h1 | h1
      · simp [mapTouch, mapFind, h, h1]
      · simp [mapTouch, mapFind, h, h1, not_lt_of_gt h1]
  | cons e rest ih =>
    obtain ⟨k0, v⟩ := e
    simp only [mapTouch]
    by_cases hk : k < k0
    · simp only [hk, if_true]
      by_cases h : key = k
      · subst h; simp [mapFind, mapRead, hk]
      · rcases lt_or_gt_of_ne h with h1 | h1
        · simp [mapFind, h, h1, lt_trans h1 hk]
        · simp [mapFind, h, h1, not_lt_of_gt h1]
    · simp only [hk, if_false]
      by_cases hk2 : k0 < k
      · simp only [hk2, if_true, mapFind, ih]
        by_cases h : key = k
        · subst h; simp [mapRead, mapFind, hk, hk2]
        · simp [h]
      · simp only [hk2, if_false]
        have hkk : k = k0 := le_antisymm (not_lt.mp hk2) (not_lt.mp hk)
        subst hkk
        by_cases h : key = k
        · subst h; simp [mapRead, mapFind]
        · simp [h]

theorem mapRead_mapTouch (m : List (Key × Option Nat)) (k key : Key) :
    mapRead (mapTouch m k) key = mapRead m key := by
  unfold mapRead
  rw [mapFind_mapTouch]
  by_cases h : key = k
  · subst h; simp [mapRead]
  · simp [h]

theorem mapTouch_of_mapFind (m : List (Key × Option Nat)) (k : Key) (v : Option Nat)
    (h : mapFind m k = some v) : mapTouch m k = m := by
  induction m with
  | nil => simp [mapFind] at h
  | cons e rest ih =>
    obtain ⟨k0, v0⟩ := e
    simp only [mapFind] at h
    simp only [mapTouch]
    by_cases hk : k < k0
    · simp [hk] at h
    · simp only [hk, if_false] at h ⊢
      by_cases hk2 : k0 < k
      · simp only [hk2, if_true] at h ⊢
        rw [ih h]
      · simp [hk2]

theorem mapTouch_of_mapRead (m : List (Key × Option Nat)) (k : Key) (p : Nat)
    (h : mapRead m k = some p) : mapTouch m k = m := by
  unfold mapRead at h
  cases hf : mapFind m k with
  | none => simp [hf] at h
  | some v => exact mapTouch_of_mapFind m k v hf

theorem length_mapTouch (m : List (Key × Option Nat)) (k : Key) :
    (mapTouch m k).length = if mapFind m k = none then m.length + 1 else m.length := by
  induction m with
  | nil => simp [mapTouch, mapFind]
  | cons e rest ih =>
    obtain ⟨k0, v0⟩ := e
    simp only [mapTouch, mapFind]
    by_cases hk : k < k0
    · simp [hk]
    · simp only [hk, if_false]
      by_cases hk2 : k0 < k
      · simp only [hk2, if_true, List.length_cons, ih]
        split <;> rfl
      · simp [hk2]

theorem mapFind_mapAssign (m : List (Key × Option Nat)) (k key : Key) (p : Option Nat) :
    mapFind (mapAssign m k p) key = if key = k then some p else mapFind m key := by
  induction m with
  | nil =>
    by_cases h : key = k
    · subst h; simp [mapAssign, mapFind]
    · rcases lt_or_gt_of_ne h with h1 | h1
      · simp [mapAssign, mapFind, h, h1]
      · simp [mapAssign, mapFind, h, h1, not_lt_of_gt h1]
  | cons e rest ih =>
    obtain ⟨k0, v⟩ := e
    simp only [mapAssign]
    by_cases hk : k < k0
    · simp only [hk, if_true]
      by_cases h : key = k
      · subst h; simp [mapFind]
      · rcases lt_or_gt_of_ne h with h1 | h1
        · simp [mapFind, h, h1, lt_trans h1 hk]
        · simp [mapFind, h, h1, not_lt_of_gt h1]
    · simp only [hk, if_false]
      by_cases hk2 : k0 < k
      · simp only [hk2, if_true, mapFind, ih]
        by_cases h : key = k
        · subst h; simp [hk, hk2]
        · simp [h]
      · simp only [hk2, if_false]
        have hkk : k = k0 := le_antisymm (not_lt.mp hk2) (not_lt.mp hk)
        subst hkk
        by_cases h : key = k
        · subst h; simp [mapFind]
        · rcases lt_or_gt_of_ne h with h1 | h1
          · simp [h, mapFind, h1]
          · simp [h, mapFind, h1, not_lt_of_gt h1]

theorem length_mapAssign (m : List (Key × Option Nat)) (k : Key) (p : Option Nat) :
    (mapAssign m k p).length = if mapFind m k = none then m.length + 1 else m.length := by
  induction m with
  | nil => simp [mapAssign, mapFind]
  | cons e rest ih =>
    obtain ⟨k0, v0⟩ := e
    simp only [mapAssign, mapFind]
    by_cases hk : k < k0
    · simp [hk]
    · simp only [hk, if_false]
      by_cases hk2 : k0 < k
      · simp only [hk2, if_true, List.length_cons, ih]
        split <;> rfl
      · simp [hk2]

theorem mem_of_mapFind (m : List (Key × Option Nat)) (k : Key) (v : Option Nat)
    (h : mapFind m k = some v) : (k, v) ∈ m := by
  induction m with
  | nil => simp [mapFind] at h
  | cons e rest ih =>
    obtain ⟨k0, v0⟩ := e
    simp only [mapFind] at h
    by_cases hk : k < k0
    · simp [hk] at h
    · simp only [hk, if_false] at h
      by_cases hk2 : k0 < k
      · simp only [hk2, if_true] at h
        exact List.mem_cons_of_mem _ (ih h)
      · simp only [hk2, if_false, Option.some.injEq] at h
        have hkk : k = k0 := le_antisymm (not_lt.mp hk2) (not_lt.mp hk)
        subst hkk; subst h
        exact List.mem_cons_self _ _

theorem mem_mapTouch (m : List (Key × Option Nat)) (k : Key) (x : Key × Option Nat)
    (h : x ∈ mapTouch m k) : x ∈ m ∨ x = (k, none) := by
  induction m with
  | nil => right; simpa [mapTouch] using h
  | cons e rest ih =>
    obtain ⟨k0, v0⟩ := e
    simp only [mapTouch] at h
    by_cases hk : k < k0
    · simp only [hk, if_true, List.mem_cons] at h
      rcases h with h | h | h
      · right; exact h
      · left; rw [h]; exact List.mem_cons_self _ _
      · left; exact List.mem_cons_of_mem _ h
    · simp only [hk, if_false] at h
      by_cases hk2 : k0 < k
      · simp only [hk2, if_true, List.mem_cons] at h
        rcases h with h | h
        · left; rw [h]; exact List.mem_cons_self _ _
        · rcases ih h with h1 | h1
          · left; exact List.mem_cons_of_mem _ h1
          · right; exact h1
      · simp only [hk2, if_false] at h
        left; exact h

theorem mem_mapAssign (m : List (Key × Option Nat)) (k : Key) (p : Option Nat)
    (x : Key × Option Nat) (h : x ∈ mapAssign m k p) : x ∈ m ∨ x = (k, p) := by
  induction m with
  | nil => right; simpa [mapAssign] using h
  | cons e rest ih =>
    obtain ⟨k0, v0⟩ := e
    simp only [mapAssign] at h
    by_cases hk : k < k0
    · simp only [hk, if_true, List.mem_cons] at h
      rcases h with h | h | h
      · right; exact h
      · left; rw [h]; exact List.mem_cons_self _ _
      · left; exact List.mem_cons_of_mem _ h
    · simp only [hk, if_false] at h
      by_cases hk2 : k0 < k
      · simp only [hk2, if_true, List.mem_cons] at h
        rcases h with h | h
        · left; rw [h]; exact List.mem_cons_self _ _
        · rcases ih h with h1 | h1
          · left; exact List.mem_cons_of_mem _ h1
          · right; exact h1
      · simp only [hk2, if_false, List.mem_cons] at h
        have hkk : k = k0 := le_antisymm (not_lt.mp hk2) (not_lt.mp hk)
        rcases h with h | h
        · right; rw [h, hkk]
        · left; exact List.mem_cons_of_mem _ h

/-- The entries of the map are in strictly increasing key order. -/
theorem pairwise_mapTouch (m : List (Key × Option Nat)) (k : Key)
    (h : m.Pairwise fun x y => x.1 < y.1) :
    (mapTouch m k).Pairwise fun x y => x.1 < y.1 := by
  induction m with
  | nil => simp [mapTouch]
  | cons e rest ih =>
    obtain ⟨k0, v0⟩ := e
    rw [List.pairwise_cons] at h
    simp only [mapTouch]
    by_cases hk : k < k0
    · simp only [hk, if_true]
      refine List.Pairwise.cons ?_ (List.Pairwise.cons h.1 h.2)
      intro y hy
      rcases List.mem_cons.mp hy with rfl | hy
      · exact hk
      · exact lt_trans hk (h.1 y hy)
    · simp only [hk, if_false]
      by_cases hk2 : k0 < k
      · simp only [hk2, if_true]
        refine List.Pairwise.cons ?_ (ih h.2)
        intro y hy
        rcases mem_mapTouch rest k y hy with hy | rfl
        · exact h.1 y hy
        · exact hk2
      · simp only [hk2, if_false]
        exact List.Pairwise.cons h.1 h.2

theorem pairwise_mapAssign (m : List (Key × Option Nat)) (k : Key) (p : Option Nat)
    (h : m.Pairwise fun x y => x.1 < y.1) :
    (mapAssign m k p).Pairwise fun x y => x.1 < y.1 := by
  induction m with
  | nil => simp [mapAssign]
  | cons e rest ih =>
    obtain ⟨k0, v0⟩ := e
    rw [List.pairwise_cons] at h
    simp only [mapAssign]
    by_cases hk : k < k0
    · simp only [hk, if_true]
      refine List.Pairwise.cons ?_ (List.Pairwise.cons h.1 h.2)
      intro y hy
      rcases List.mem_cons.mp hy with rfl | hy
      · exact hk
      · exact lt_trans hk (h.1 y hy)
    · simp only [hk, if_false]
      by_cases hk2 : k0 < k
      · simp only [hk2, if_true]
        refine List.Pairwise.cons ?_ (ih h.2)
        intro y hy
        rcases mem_mapAssign rest k p y hy with hy | rfl
        · exact h.1 y hy
        · exact hk2
      · simp only [hk2, if_false]
        exact List.Pairwise.cons h.1 h.2

theorem mapErase_sublist (m : List (Key × Option Nat)) (k : Key) :
    (mapErase m k).Sublist m := by
  induction m with
  | nil => simp [mapErase]
  | cons e rest ih =>
    obtain ⟨k0, v0⟩ := e
    simp only [mapErase]
    by_cases hk : k < k0
    · simp [hk]
    · simp only [hk, if_false]
      by_cases hk2 : k0 < k
      · simp only [hk2, if_true]
        exact List.Sublist.cons₂ _ ih
      · simp only [hk2, if_false]
        exact List.sublist_cons_self _ _

theorem pairwise_mapErase (m : List (Key × Option Nat)) (k : Key)
    (h : m.Pairwise fun x y => x.1 < y.1) :
    (mapErase m k).Pairwise fun x y => x.1 < y.1 :=
  List.Pairwise.sublist (mapErase_sublist m k) h

theorem mapFind_none_of_lt (m : List (Key × Option Nat)) (k : Key)
    (h : ∀ y ∈ m, k < y.1) : mapFind m k = none := by
  cases m with
  | nil => rfl
  | cons e rest =>
    obtain ⟨k0, v0⟩ := e
    have : k < k0 := h (k0, v0) (List.mem_cons_self _ _)
    simp [mapFind, this]

theorem mapFind_of_mem (m : List (Key × Option Nat)) (k : Key) (v : Option Nat)
    (hs : m.Pairwise fun x y => x.1 < y.1) (h : (k, v) ∈ m) : mapFind m k = some v := by
  induction m with
  | nil => simp at h
  | cons e rest ih =>
    obtain ⟨k0, v0⟩ := e
    rw [List.pairwise_cons] at hs
    rcases List.mem_cons.mp h with heq | hmem
    · cases heq
      simp [mapFind]
    · have hlt : k0 < k := hs.1 (k, v) hmem
      simp [mapFind, hlt, not_lt_of_gt hlt, ih hs.2 hmem]

theorem mapFind_mapErase (m : List (Key × Option Nat)) (k key : Key)
    (hs : m.Pairwise fun x y => x.1 < y.1) :
    mapFind (mapErase m k) key = if key = k then none else mapFind m key := by
  induction m with
  | nil => simp [mapErase, mapFind]
  | cons e rest ih =>
    obtain ⟨k0, v0⟩ := e
    rw [List.pairwise_cons] at hs
    simp only [mapErase]
    by_cases hk : k < k0
    · simp only [hk, if_true]
      by_cases h : key = k
      · subst h; simp [mapFind, hk]
      · simp [h]
    · simp only [hk, if_false]
      by_cases hk2 : k0 < k
      · simp only [hk2, if_true, mapFind, ih hs.2]
        by_cases h : key = k
        · subst h; simp [hk, hk2]
        · simp [h]
      · simp only [hk2, if_false]
        have hkk : k = k0 := le_antisymm (not_lt.mp hk2) (not_lt.mp hk)
        subst hkk
        by_cases h : key = k
        · subst h
          simp [mapFind_none_of_lt rest key hs.1]
        · rcases lt_or_gt_of_ne h with h1 | h1
          · have : mapFind rest key = none :=
              mapFind_none_of_lt rest key (fun y hy => lt_trans h1 (hs.1 y hy))
            simp [h, mapFind, h1, this]
          · simp [h, mapFind, h1, not_lt_of_gt h1]

end MapLemmas

section HeapLemmas

variable {Key T : Type}

theorem deref_set_self (heap : List (Option (GraphNode Key T))) (p : Nat)
    (node : GraphNode Key T) (x : Option (GraphNode Key T))
    (h : deref heap p = some node) : deref (heap.set p x) p = x := by
  have hlt : p < heap.length := by
    rcases Nat.lt_or_ge p heap.length with hlt | hge
    · exact hlt
    · simp [deref, List.getElem?_eq_none hge] at h
  simp [deref, List.getElem?_set_self hlt]

theorem deref_set_ne (heap : List (Option (GraphNode Key T))) (p q : Nat)
    (x : Option (GraphNode Key T)) (h : p ≠ q) :
    deref (heap.set p x) q = deref heap q := by
  simp [deref, List.getElem?_set_ne h]

theorem deref_lt (heap : List (Option (GraphNode Key T))) (p : Nat)
    (node : GraphNode Key T) (h : deref heap p = some node) : p < heap.length := by
  rcases Nat.lt_or_ge p heap.length with hlt | hge
  · exact hlt
  · simp [deref, List.getElem?_eq_none hge] at h

theorem updateAdj_of_deref (heap : List (Option (GraphNode Key T))) (p : Nat)
    (f : List Nat → List Nat) (node : GraphNode Key T) (h : deref heap p = some node) :
    updateAdj heap p f = some (heap.set p (some { node with adj := f node.adj })) := by
  simp [updateAdj, h]

theorem updateAdj_spec (heap heap1 : List (Option (GraphNode Key T))) (p : Nat)
    (f : List Nat → List Nat) (h : updateAdj heap p f = some heap1) :
    heap1.length = heap.length ∧
    ∀ q, deref heap1 q =
      if q = p then (deref heap q).map fun node => { node with adj := f node.adj }
      else deref heap q := by
  unfold updateAdj at h
  cases hd : deref heap p with
  | none => simp [hd] at h
  | some node =>
    simp only [hd, Option.some.injEq] at h
    subst h
    refine ⟨by simp, fun q => ?_⟩
    by_cases hq : q = p
    · subst hq
      simp [hd, deref_set_self heap q node _ hd]
    · simp [hq, deref_set_ne heap p q _ (Ne.symm hq)]

theorem free_spec (heap heap1 : List (Option (GraphNode Key T))) (p : Nat)
    (h : free heap p = some heap1) :
    heap1.length = heap.length ∧
    ∀ q, deref heap1 q = if q = p then none else deref heap q := by
  unfold free at h
  cases hd : deref heap p with
  | none => simp [hd] at h
  | some node =>
    simp only [hd, Option.some.injEq] at h
    subst h
    refine ⟨by simp, fun q => ?_⟩
    by_cases hq : q = p
    · subst hq
      simp [deref_set_self heap q node _ hd]
    · simp [hq, deref_set_ne heap p q _ (Ne.symm hq)]

theorem deref_append_new (heap : List (Option (GraphNode Key T)))
    (x : Option (GraphNode Key T)) (q : Nat) :
    deref (heap ++ [x]) q =
      if q < heap.length then deref heap q else if q = heap.length then x else none := by
  unfold deref
  by_cases h : q < heap.length
  · simp [h, List.getElem?_append_left h]
  · simp only [h, if_false]
    by_cases h2 : q = heap.length
    · subst h2; simp
    · have : heap.length + 1 ≤ q := by omega
      simp [h2, List.getElem?_eq_none, this]

/-- The address that `new` returns is a cell of the free store that holds no
live node, or the next unused address. -/
theorem allocate_spec (heap : List (Option (GraphNode Key T))) (pick : Nat) :
    deref heap (allocate heap pick) = none ∧ allocate heap pick ≤ heap.length := by
  unfold allocate
  split
  · next hp =>
    refine ⟨by simp [deref, hp], ?_⟩
    rcases Nat.lt_or_ge pick heap.length with hlt | hge
    · exact Nat.le_of_lt hlt
    · simp [List.getElem?_eq_none hge] at hp
  · exact ⟨by simp [deref], Nat.le_refl _⟩

/-- While no cell was deleted, `new` returns the next unused address whatever
the allocator's choice. -/
theorem allocate_of_no_deleted (heap : List (Option (GraphNode Key T)))
    (h : heap.all Option.isSome = true) (pick : Nat) :
    allocate heap pick = heap.length := by
  unfold allocate
  split
  · next hp =>
    have hmem : (none : Option (GraphNode Key T)) ∈ heap := List.getElem?_mem hp
    have := List.all_eq_true.mp h none hmem
    simp at this
  · rfl

/-- Every address of a deleted cell, and the next unused address, is returned
by `new` for some choice of the allocator. -/
theorem allocate_any (heap : List (Option (GraphNode Key T))) (p : Nat)
    (h : heap[p]? = some none ∨ p = heap.length) : allocate heap p = p := by
  unfold allocate
  rcases h with h | h
  · simp [h]
  · subst h; simp

theorem deref_construct (heap : List (Option (GraphNode Key T))) (p : Nat)
    (node : GraphNode Key T) (hp : p ≤ heap.length) (q : Nat) :
    deref (construct heap p node) q = if q = p then some node else deref heap q := by
  unfold construct
  by_cases h : p < heap.length
  · simp only [h, if_true]
    by_cases hq : q = p
    · subst hq
      simp [deref, List.getElem?_set_self h]
    · simp [hq, deref_set_ne heap p q _ (Ne.symm hq)]
  · have hp2 : p = heap.length := by omega
    subst hp2
    simp only [Nat.lt_irrefl, if_false]
    rw [deref_append_new]
    by_cases hq : q < heap.length
    · simp [hq, Nat.ne_of_lt hq]
    · by_cases hq2 : q = heap.length
      · simp [hq2]
      · have hnone : deref heap q = none := by
          simp [deref, List.getElem?_eq_none (by omega : heap.length ≤ q)]
        simp [hq, hq2, hnone]

theorem updateAdj_rewrite (heap heap1 : List (Option (GraphNode Key T))) (p : Nat)
    (f : List Nat → List Nat) (h : updateAdj heap p f = some heap1) :
    heap1.length = heap.length ∧
    ∀ q, deref heap1 q =
      (deref heap q).map fun node =>
        { node with adj := if q = p then f node.adj else node.adj } := by
  obtain ⟨hlen, hd⟩ := updateAdj_spec heap heap1 p f h
  refine ⟨hlen, fun q => ?_⟩
  rw [hd q]
  by_cases hq : q = p
  · simp [hq]
  · simp only [hq, if_false]
    cases deref heap q <;> rfl

theorem count_erase_eq (l : List Nat) (x y : Nat) :
    (l.erase y).count x = l.count x - if x = y then 1 else 0 := by
  rw [List.count_erase]
  by_cases h : x = y
  · subst h; simp
  · have : ¬ y = x := fun c => h c.symm
    simp [h, this]

theorem count_append_singleton (l : List Nat) (x y : Nat) :
    (l ++ [y]).count x = l.count x + if x = y then 1 else 0 := by
  rw [List.count_append, List.count_singleton]
  by_cases h : x = y
  · subst h; simp
  · have : ¬ y = x := fun c => h c.symm
    simp [h, this]

/-- The two `push_back` calls of `addEdge`, as one change of the list of the
node at address `q`. -/
theorem count_pushBoth (pa pb q x : Nat) (adj : List Nat) :
    (if q = pb then (if q = pa then adj ++ [pb] else adj) ++ [pa]
      else (if q = pa then adj ++ [pb] else adj)).count x =
    adj.count x + (if q = pa ∧ x = pb then 1 else 0) +
      (if q = pb ∧ x = pa then 1 else 0) := by
  by_cases c1 : q = pb
  · subst c1
    by_cases c2 : q = pa
    · subst c2
      simp only [if_true, true_and, count_append_singleton]
    · simp only [if_true, c2, if_false, true_and, false_and, count_append_singleton,
        Nat.add_zero]
  · by_cases c2 : q = pa
    · subst c2
      simp only [if_true, c1, if_false, true_and, false_and, count_append_singleton,
        Nat.add_zero]
    · simp only [c1, c2, if_false, false_and, Nat.add_zero]

/-- The two erasures of `removeEdge`, as one change of the list of the node at
address `q`. -/
theorem count_eraseBoth (pa pb q x : Nat) (adj : List Nat) :
    (if q = pb then (if q = pa then adj.erase pb else adj).erase pa
      else (if q = pa then adj.erase pb else adj)).count x =
    adj.count x - (if q = pa ∧ x = pb then 1 else 0) -
      (if q = pb ∧ x = pa then 1 else 0) := by
  by_cases c1 : q = pb
  · subst c1
    by_cases c2 : q = pa
    · subst c2
      simp only [if_true, true_and, count_erase_eq]
    · simp only [if_true, c2, if_false, true_and, false_and, count_erase_eq, Nat.sub_zero]
  · by_cases c2 : q = pa
    · subst c2
      simp only [if_true, c1, if_false, true_and, false_and, count_erase_eq, Nat.sub_zero]
    · simp only [c1, c2, if_false, false_and, Nat.sub_zero]

theorem set_eq_self_of_deref (heap : List (Option (GraphNode Key T))) (p : Nat)
    (node : GraphNode Key T) (h : deref heap p = some node) :
    heap.set p (some node) = heap := by
  induction heap generalizing p with
  | nil => simp
  | cons x rest ih =>
    cases p with
    | zero =>
      have hx : x = some node := by simpa [deref] using h
      simp [hx]
    | succ j =>
      simp only [List.set_cons_succ, List.cons.injEq, true_and]
      exact ih j (by simpa [deref] using h)

end HeapLemmas

namespace Graph

variable {Key T : Type} [LinearOrder Key]

/-- With both keys present `addEdge` runs its two `push_back` calls on the
graph as it is: the map is not touched. -/
theorem addEdge_of_present (g : Graph Key T) (a b : Key) (pa pb : Nat)
    (ha : mapRead g.nodes a = some pa) (hb : mapRead g.nodes b = some pb) :
    addEdge g a b =
      (updateAdj g.heap pa (fun adj => adj ++ [pb])).bind fun heap1 =>
      (updateAdj heap1 pb (fun adj => adj ++ [pa])).bind fun heap2 =>
      some { nodes := g.nodes, heap := heap2 } := by
  unfold addEdge
  simp only [mapTouch_of_mapRead g.nodes a pa ha, ha,
    mapTouch_of_mapRead g.nodes b pb hb, hb]

/-- With both keys present `removeEdge` runs its two erasures on the graph as
it is: the map is not touched. -/
theorem removeEdge_of_present (g : Graph Key T) (a b : Key) (pa pb : Nat)
    (ha : mapRead g.nodes a = some pa) (hb : mapRead g.nodes b = some pb) :
    removeEdge g a b =
      (updateAdj g.heap pa (fun adj => adj.erase pb)).bind fun heap1 =>
      (updateAdj heap1 pb (fun adj => adj.erase pa)).bind fun heap2 =>
      some { nodes := g.nodes, heap := heap2 } := by
  unfold removeEdge
  simp only [mapTouch_of_mapRead g.nodes a pa ha, ha,
    mapTouch_of_mapRead g.nodes b pb hb, hb]

theorem inv_init (id : Key) (data : T) : Inv (init id data) := by
  have hread : ∀ k p, mapRead (init id data).nodes k = some p → p = 0 := by
    intro k p h
    simp only [init, mapRead, mapFind] at h
    split at h
    · simp at h
    · split at h
      · simp at h
      · simpa using h.symm
  refine ⟨by simp [init], ?_, ?_⟩
  · intro k p h
    rw [hread k p h]
    exact ⟨_, rfl⟩
  · intro k1 k2 p h1 h2
    simp only [init, mapRead, mapFind] at h1 h2
    by_cases c1 : k1 < id
    · simp [c1] at h1
    · by_cases c2 : id < k1
      · simp [c1, c2] at h1
      · by_cases c3 : k2 < id
        · simp [c3] at h2
        · by_cases c4 : id < k2
          · simp [c3, c4] at h2
          · exact (le_antisymm (not_lt.mp c2) (not_lt.mp c1)).trans
              (le_antisymm (not_lt.mp c3) (not_lt.mp c4))

theorem inv_touch (g : Graph Key T) (k : Key) (h : Inv g) :
    Inv { g with nodes := mapTouch g.nodes k } := by
  refine ⟨pairwise_mapTouch _ _ h.sorted, ?_, ?_⟩
  · intro k1 p h1
    rw [mapRead_mapTouch] at h1
    exact h.live k1 p h1
  · intro k1 k2 p h1 h2
    rw [mapRead_mapTouch] at h1 h2
    exact h.inj k1 k2 p h1 h2

theorem mapRead_mapAssign (m : List (Key × Option Nat)) (k key : Key) (p : Option Nat) :
    mapRead (mapAssign m k p) key = if key = k then p else mapRead m key := by
  unfold mapRead
  rw [mapFind_mapAssign]
  by_cases h : key = k
  · simp [h]
  · simp [h]

theorem addVertex_of_some (g : Graph Key T) (pick : Nat) (id : Key) (data : T) (p : Nat)
    (h : mapRead g.nodes id = some p) : addVertex g pick id data = g := by
  unfold addVertex
  simp only [mapRead_mapTouch, h, mapTouch_of_mapRead g.nodes id p h]

theorem addVertex_of_none (g : Graph Key T) (pick : Nat) (id : Key) (data : T)
    (h : mapRead g.nodes id = none) :
    addVertex g pick id data =
      { nodes := mapAssign (mapTouch g.nodes id) id (some (allocate g.heap pick)),
        heap := construct g.heap (allocate g.heap pick)
          { id := id, data := data, adj := [] } } := by
  unfold addVertex
  simp only [mapRead_mapTouch, h]

/-- While no cell was deleted the allocator's choice plays no part in
`addVertex`. -/
theorem addVertex_pick (g : Graph Key T) (h : g.heap.all Option.isSome = true)
    (pick : Nat) (id : Key) (data : T) :
    addVertex g pick id data = addVertex g g.heap.length id data := by
  unfold addVertex
  rw [allocate_of_no_deleted g.heap h pick, allocate_of_no_deleted g.heap h g.heap.length]

/-- For a key that has no entry in the map, `addVertex` adds one entry, which
holds the new vertex with its value and an empty adjacency list, whatever
address `new` returns. -/
theorem addVertex_fresh (g : Graph Key T) (pick : Nat) (id : Key) (data : T)
    (h : mapFind g.nodes id = none) :
    size (addVertex g pick id data) = size g + 1 ∧
    dataOf (addVertex g pick id data) id = some data ∧
    adjOf (addVertex g pick id data) id = some [] := by
  have hr : mapRead g.nodes id = none := by simp [mapRead, h]
  rw [addVertex_of_none g pick id data hr]
  have hread : mapRead (mapAssign (mapTouch g.nodes id) id (some (allocate g.heap pick))) id =
      some (allocate g.heap pick) := by
    rw [mapRead_mapAssign]; simp
  have hderef : deref (construct g.heap (allocate g.heap pick)
      { id := id, data := data, adj := [] }) (allocate g.heap pick) =
      some { id := id, data := data, adj := [] } := by
    rw [deref_construct _ _ _ (allocate_spec g.heap pick).2]; simp
  refine ⟨?_, ?_, ?_⟩
  · simp only [size]
    rw [length_mapAssign, mapFind_mapTouch, length_mapTouch]
    simp [h]
  · simp only [dataOf, hread, Option.some_bind, hderef, Option.map_some']
  · simp only [adjOf, hread, Option.some_bind, hderef, Option.map_some']

theorem inv_addVertex (g : Graph Key T) (pick : Nat) (id : Key) (data : T) (h : Inv g) :
    Inv (addVertex g pick id data) := by
  cases hr : mapRead g.nodes id with
  | some p => rw [addVertex_of_some g pick id data p hr]; exact h
  | none =>
    rw [addVertex_of_none g pick id data hr]
    obtain ⟨hfree, hle⟩ := allocate_spec g.heap pick
    have hother : ∀ k p, mapRead g.nodes k = some p → p ≠ allocate g.heap pick := by
      intro k p hk hp
      obtain ⟨node, hn⟩ := h.live k p hk
      rw [hp, hfree] at hn
      cases hn
    have hread : ∀ key,
        mapRead (mapAssign (mapTouch g.nodes id) id (some (allocate g.heap pick))) key =
        if key = id then some (allocate g.heap pick) else mapRead g.nodes key := by
      intro key
      rw [mapRead_mapAssign, mapRead_mapTouch]
    refine ⟨pairwise_mapAssign _ _ _ (pairwise_mapTouch _ _ h.sorted), ?_, ?_⟩
    · intro k p hk
      rw [hread] at hk
      by_cases c : k = id
      · simp only [c, if_true, Option.some.injEq] at hk
        subst hk
        exact ⟨{ id := id, data := data, adj := [] }, by
          show deref (construct g.heap _ _) _ = _
          rw [deref_construct _ _ _ hle]; simp⟩
      · simp only [c, if_false] at hk
        obtain ⟨node, hn⟩ := h.live k p hk
        exact ⟨node, by
          show deref (construct g.heap _ _) _ = _
          rw [deref_construct _ _ _ hle, if_neg (hother k p hk)]; exact hn⟩
    · intro k1 k2 p h1 h2
      rw [hread] at h1 h2
      by_cases c1 : k1 = id
      · by_cases c2 : k2 = id
        · rw [c1, c2]
        · simp only [c1, if_true, Option.some.injEq] at h1
          simp only [c2, if_false] at h2
          exact absurd h1.symm (hother k2 p h2)
      · by_cases c2 : k2 = id
        · simp only [c2, if_true, Option.some.injEq] at h2
          simp only [c1, if_false] at h1
          exact absurd h2.symm (hother k1 p h1)
        · simp only [c1, if_false] at h1
          simp only [c2, if_false] at h2
          exact h.inj k1 k2 p h1 h2

/-- A change of the adjacency lists alone, `F q` applied to the list of the node
at address `q`, keeps the invariant. -/
theorem inv_rewrite (g : Graph Key T) (heap1 : List (Option (GraphNode Key T)))
    (F : Nat → List Nat → List Nat) (h : Inv g)
    (hd : ∀ q, deref heap1 q =
      (deref g.heap q).map fun node => { node with adj := F q node.adj }) :
    Inv { nodes := g.nodes, heap := heap1 } := by
  refine ⟨h.sorted, ?_, h.inj⟩
  intro k p hk
  obtain ⟨node, hn⟩ := h.live k p hk
  exact ⟨_, by rw [hd p, hn]; rfl⟩

theorem inv_addEdge (g g1 : Graph Key T) (a b : Key) (h : Inv g)
    (hg : addEdge g a b = some g1) : Inv g1 := by
  cases ha : mapRead g.nodes a with
  | none =>
    have : g1 = { g with nodes := mapTouch g.nodes a } := by
      unfold addEdge at hg
      simp only [mapRead_mapTouch, ha, Option.some.injEq] at hg
      exact hg.symm
    rw [this]; exact inv_touch g a h
  | some pa =>
    cases hb : mapRead g.nodes b with
    | none =>
      have : g1 = { g with nodes := mapTouch g.nodes b } := by
        unfold addEdge at hg
        simp only [mapRead_mapTouch, ha, hb, mapTouch_of_mapRead g.nodes a pa ha,
          Option.some.injEq] at hg
        exact hg.symm
      rw [this]; exact inv_touch g b h
    | some pb =>
      rw [addEdge_of_present g a b pa pb ha hb] at hg
      cases hu1 : updateAdj g.heap pa (fun adj => adj ++ [pb]) with
      | none => simp [hu1] at hg
      | some heap1 =>
        simp only [hu1, Option.some_bind] at hg
        cases hu2 : updateAdj heap1 pb (fun adj => adj ++ [pa]) with
        | none => simp [hu2] at hg
        | some heap2 =>
          simp only [hu2, Option.some_bind, Option.some.injEq] at hg
          subst hg
          obtain ⟨_, hd1⟩ := updateAdj_rewrite _ _ _ _ hu1
          obtain ⟨_, hd2⟩ := updateAdj_rewrite _ _ _ _ hu2
          apply inv_rewrite g heap2
            (fun q adj => if q = pb then (if q = pa then adj ++ [pb] else adj) ++ [pa]
              else (if q = pa then adj ++ [pb] else adj)) h
          intro q
          rw [hd2 q, hd1 q]
          cases deref g.heap q <;> rfl

theorem inv_removeEdge (g g1 : Graph Key T) (a b : Key) (h : Inv g)
    (hg : removeEdge g a b = some g1) : Inv g1 := by
  cases ha : mapRead g.nodes a with
  | none =>
    have : g1 = { g with nodes := mapTouch g.nodes a } := by
      unfold removeEdge at hg
      simp only [mapRead_mapTouch, ha, Option.some.injEq] at hg
      exact hg.symm
    rw [this]; exact inv_touch g a h
  | some pa =>
    cases hb : mapRead g.nodes b with
    | none =>
      have : g1 = { g with nodes := mapTouch g.nodes b } := by
        unfold removeEdge at hg
        simp only [mapRead_mapTouch, ha, hb, mapTouch_of_mapRead g.nodes a pa ha,
          Option.some.injEq] at hg
        exact hg.symm
      rw [this]; exact inv_touch g b h
    | some pb =>
      rw [removeEdge_of_present g a b pa pb ha hb] at hg
      cases hu1 : updateAdj g.heap pa (fun adj => adj.erase pb) with
      | none => simp [hu1] at hg
      | some heap1 =>
        simp only [hu1, Option.some_bind] at hg
        cases hu2 : updateAdj heap1 pb (fun adj => adj.erase pa) with
        | none => simp [hu2] at hg
        | some heap2 =>
          simp only [hu2, Option.some_bind, Option.some.injEq] at hg
          subst hg
          obtain ⟨_, hd1⟩ := updateAdj_rewrite _ _ _ _ hu1
          obtain ⟨_, hd2⟩ := updateAdj_rewrite _ _ _ _ hu2
          apply inv_rewrite g heap2
            (fun q adj => if q = pb then (if q = pa then adj.erase pb else adj).erase pa
              else (if q = pa then adj.erase pb else adj)) h
          intro q
          rw [hd2 q, hd1 q]
          cases deref g.heap q <;> rfl

theorem mapRead_mapErase (m : List (Key × Option Nat)) (k key : Key)
    (hs : m.Pairwise fun x y => x.1 < y.1) :
    mapRead (mapErase m k) key = if key = k then none else mapRead m key := by
  unfold mapRead
  rw [mapFind_mapErase m k key hs]
  by_cases h : key = k
  · simp [h]
  · simp [h]

theorem mem_of_mapRead (m : List (Key × Option Nat)) (k : Key) (p : Nat)
    (h : mapRead m k = some p) : (k, some p) ∈ m := by
  unfold mapRead at h
  cases hf : mapFind m k with
  | none => simp [hf] at h
  | some v =>
    simp only [hf, Option.join] at h
    subst h
    exact mem_of_mapFind m k _ hf

theorem mapRead_of_mem (m : List (Key × Option Nat)) (k : Key) (p : Nat)
    (hs : m.Pairwise fun x y => x.1 < y.1) (h : (k, some p) ∈ m) :
    mapRead m k = some p := by
  unfold mapRead
  rw [mapFind_of_mem m k (some p) hs h]
  rfl

/-- In a sorted map whose keys do not share nodes, no pointer occurs twice. -/
theorem nodup_pointers (m : List (Key × Option Nat))
    (hs : m.Pairwise fun x y => x.1 < y.1)
    (hinj : ∀ k1 k2 p, (k1, some p) ∈ m → (k2, some p) ∈ m → k1 = k2) :
    (m.filterMap Prod.snd).Nodup := by
  induction m with
  | nil => simp
  | cons e rest ih =>
    obtain ⟨k0, v0⟩ := e
    rw [List.pairwise_cons] at hs
    have hrest := ih hs.2 (fun k1 k2 p h1 h2 =>
      hinj k1 k2 p (List.mem_cons_of_mem _ h1) (List.mem_cons_of_mem _ h2))
    cases v0 with
    | none => simpa [List.filterMap_cons] using hrest
    | some p =>
      rw [List.filterMap_cons]
      simp only []
      refine List.nodup_cons.mpr ⟨?_, hrest⟩
      intro hmem
      obtain ⟨⟨k, v⟩, hkv, hv⟩ := List.mem_filterMap.mp hmem
      simp only at hv
      subst hv
      have hlt : k0 < k := hs.1 (k, some p) hkv
      have := hinj k0 k p (List.mem_cons_self _ _) (List.mem_cons_of_mem _ hkv)
      exact absurd this (ne_of_lt hlt)

omit [LinearOrder Key] in
/-- What the loop of `removeVertex` does when no pointer occurs twice among the
entries: the list of every node that an entry points to loses the first
occurrence of `target`, and nothing else changes. -/
theorem purgeLoop_spec (target : Nat) (es : List (Key × Option Nat)) :
    ∀ (heap heap1 : List (Option (GraphNode Key T))),
      (es.filterMap Prod.snd).Nodup →
      purgeLoop target es heap = some heap1 →
      heap1.length = heap.length ∧
      ∀ q, deref heap1 q =
        (deref heap q).map fun node =>
          { node with adj := if q ∈ es.filterMap Prod.snd then node.adj.erase target
                             else node.adj } := by
  induction es with
  | nil =>
    intro heap heap1 _ h
    simp only [purgeLoop, Option.some.injEq] at h
    subst h
    refine ⟨rfl, fun q => ?_⟩
    cases deref heap q <;> simp
  | cons e rest ih =>
    intro heap heap1 hnd h
    obtain ⟨k0, v0⟩ := e
    cases v0 with
    | none => simp [purgeLoop] at h
    | some p =>
      simp only [purgeLoop] at h
      cases hu : updateAdj heap p (fun adj => adj.erase target) with
      | none => simp [hu] at h
      | some heap0 =>
        simp only [hu, Option.some_bind] at h
        have hnd0 : (p :: rest.filterMap Prod.snd).Nodup := by
          simpa [List.filterMap_cons] using hnd
        obtain ⟨hp, hndrest⟩ := List.nodup_cons.mp hnd0
        obtain ⟨hl0, hd0⟩ := updateAdj_rewrite _ _ _ _ hu
        obtain ⟨hl1, hd1⟩ := ih heap0 heap1 hndrest h
        refine ⟨hl1.trans hl0, fun q => ?_⟩
        rw [hd1 q, hd0 q]
        have hmem : q ∈ ((k0, some p) :: rest).filterMap Prod.snd ↔
            q = p ∨ q ∈ rest.filterMap Prod.snd := by
          simp [List.filterMap_cons]
        cases deref heap q with
        | none => rfl
        | some node =>
          simp only [Option.map_some', Option.some.injEq]
          by_cases c : q = p
          · subst c
            simp [hp]
          · have hiff : q ∈ ((k0, some p) :: rest).filterMap Prod.snd ↔
                q ∈ rest.filterMap Prod.snd := by
              rw [hmem]; simp [c]
            simp only [c, if_false]
            by_cases c2 : q ∈ rest.filterMap Prod.snd
            · rw [if_pos c2, if_pos (hiff.mpr c2)]
            · rw [if_neg c2, if_neg (fun hc => c2 (hiff.mp hc))]

theorem inv_removeVertex (g g1 : Graph Key T) (id : Key) (h : Inv g)
    (hg : removeVertex g id = some g1) : Inv g1 := by
  cases hid : mapRead g.nodes id with
  | none =>
    have : g1 = { g with nodes := mapTouch g.nodes id } := by
      unfold removeVertex at hg
      simp only [mapRead_mapTouch, hid, Option.some.injEq] at hg
      exact hg.symm
    rw [this]; exact inv_touch g id h
  | some p =>
    unfold removeVertex at hg
    simp only [mapRead_mapTouch, hid, mapTouch_of_mapRead g.nodes id p hid] at hg
    cases hu1 : purgeLoop p g.nodes g.heap with
    | none => simp [hu1] at hg
    | some heap1 =>
      simp only [hu1, Option.some_bind] at hg
      cases hu2 : free heap1 p with
      | none => simp [hu2] at hg
      | some heap2 =>
        simp only [hu2, Option.some_bind, Option.some.injEq] at hg
        subst hg
        have hnd : (g.nodes.filterMap Prod.snd).Nodup :=
          nodup_pointers g.nodes h.sorted (fun k1 k2 q h1 h2 =>
            h.inj k1 k2 q (mapRead_of_mem _ _ _ h.sorted h1) (mapRead_of_mem _ _ _ h.sorted h2))
        obtain ⟨_, hd1⟩ := purgeLoop_spec p g.nodes g.heap heap1 hnd hu1
        obtain ⟨_, hd2⟩ := free_spec heap1 heap2 p hu2
        have hread : ∀ k, mapRead (mapErase g.nodes id) k =
            if k = id then none else mapRead g.nodes k :=
          fun k => mapRead_mapErase g.nodes id k h.sorted
        have hptr : ∀ k q, mapRead (mapErase g.nodes id) k = some q →
            mapRead g.nodes k = some q ∧ q ≠ p ∧ q ∈ g.nodes.filterMap Prod.snd := by
          intro k q hk
          rw [hread] at hk
          by_cases c : k = id
          · simp [c] at hk
          · simp only [c, if_false] at hk
            refine ⟨hk, ?_, ?_⟩
            · intro hqp
              subst hqp
              exact c (h.inj k id q hk hid)
            · exact List.mem_filterMap.mpr ⟨(k, some q), mem_of_mapRead _ _ _ hk, rfl⟩
        refine ⟨pairwise_mapErase _ _ h.sorted, ?_, ?_⟩
        · intro k q hk
          obtain ⟨hk1, hqp, _⟩ := hptr k q hk
          obtain ⟨node, hn⟩ := h.live k q hk1
          exact ⟨_, by
            show deref heap2 q = _
            rw [hd2 q, if_neg hqp, hd1 q, hn]; rfl⟩
        · intro k1 k2 q h1 h2
          exact h.inj k1 k2 q (hptr k1 q h1).1 (hptr k2 q h2).1

theorem bfsWith_graph (fuel : Nat) (g : Graph Key T) (startId : Key)
    (r : Graph Key T × List T) (h : bfsWith fuel g startId = LoopResult.done r) :
    r.1 = { g with nodes := mapTouch g.nodes startId } := by
  unfold bfsWith at h
  simp only [] at h
  split at h
  · simp only [LoopResult.done.injEq] at h
    rw [← h]
  · split at h
    · simp only [LoopResult.done.injEq] at h
      rw [← h]
    · cases h
    · cases h

theorem inv_step (g g1 : Graph Key T) (op : Op Key T) (h : Inv g)
    (hg : step g op = some g1) : Inv g1 := by
  cases op with
  | addVertex pick id data =>
    simp only [step, Option.some.injEq] at hg
    subst hg
    exact inv_addVertex g pick id data h
  | addEdge src dest => exact inv_addEdge g g1 src dest h hg
  | removeEdge src dest => exact inv_removeEdge g g1 src dest h hg
  | removeVertex id => exact inv_removeVertex g g1 id h hg
  | bfs startId =>
    simp only [step] at hg
    cases hb : bfs g startId with
    | done r =>
      simp only [hb, Option.some.injEq] at hg
      subst hg
      rw [bfsWith_graph _ g startId r hb]
      exact inv_touch g startId h
    | undefined => simp [hb] at hg
    | unfinished => simp [hb] at hg

theorem inv_run (ops : List (Op Key T)) :
    ∀ (g g1 : Graph Key T), Inv g → run g ops = some g1 → Inv g1 := by
  induction ops with
  | nil =>
    intro g g1 h hg
    simp only [run, Option.some.injEq] at hg
    subst hg
    exact h
  | cons op rest ih =>
    intro g g1 h hg
    simp only [run] at hg
    cases hs : step g op with
    | none => simp [hs] at hg
    | some g0 =>
      simp only [hs, Option.some_bind] at hg
      exact ih g0 g1 (inv_step g g0 op h hs) hg

/-- Every reachable graph state satisfies the invariant: whatever addresses
`new` hands out, a key that is a vertex points to a live node of its own. -/
theorem inv_of_reachable (g : Graph Key T) (h : Reachable g) : Inv g := by
  obtain ⟨id, data, ops, hrun⟩ := h
  exact inv_run ops (init id data) g (inv_init id data) hrun

/-- C4: when `a` and `b` are vertices (the map has a pointer to a live node for
each), `addEdge(a, b)` has a result in which the node of `b` is pushed at the
back of the list of `a` and the node of `a` at the back of the list of `b`
(for one and the same node the list gets the node twice); so each is among the
neighbours of the other. -/
theorem C4_addEdge_appends (g : Graph Key T) (a b : Key) (pa pb : Nat)
    (na nb : GraphNode Key T)
    (ha : mapRead g.nodes a = some pa) (hb : mapRead g.nodes b = some pb)
    (hna : deref g.heap pa = some na) (hnb : deref g.heap pb = some nb) :
    ∃ g1 la lb, addEdge g a b = some g1 ∧ g1.nodes = g.nodes ∧
      adjOf g1 a = some la ∧ adjOf g1 b = some lb ∧
      la = (if pa = pb then na.adj ++ [pb] ++ [pa] else na.adj ++ [pb]) ∧
      lb = (if pa = pb then nb.adj ++ [pb] ++ [pa] else nb.adj ++ [pa]) ∧
      la.getLast? = some pb ∧ lb.getLast? = some pa ∧ pb ∈ la ∧ pa ∈ lb := by
  rw [addEdge_of_present g a b pa pb ha hb, updateAdj_of_deref _ _ _ _ hna]
  by_cases hp : pa = pb
  · subst hp
    have hnab : na = nb := by rw [hna] at hnb; exact Option.some.inj hnb
    subst hnab
    have h1 := deref_set_self g.heap pa na
      (some { na with adj := na.adj ++ [pa] }) hna
    simp only [Option.some_bind, updateAdj_of_deref _ _ _ _ h1]
    have h2 := deref_set_self (g.heap.set pa (some { na with adj := na.adj ++ [pa] })) pa _
      (some { na with adj := na.adj ++ [pa] ++ [pa] }) h1
    refine ⟨_, na.adj ++ [pa] ++ [pa], na.adj ++ [pa] ++ [pa], rfl, rfl, ?_, ?_, ?_⟩
    · simp only [adjOf, ha, Option.some_bind, h2, Option.map_some']
    · simp only [adjOf, hb, Option.some_bind, h2, Option.map_some']
    · simp
  · have h1 : deref (g.heap.set pa (some { na with adj := na.adj ++ [pb] })) pb = some nb := by
      rw [deref_set_ne _ _ _ _ hp]; exact hnb
    simp only [Option.some_bind, updateAdj_of_deref _ _ _ _ h1]
    have h2 := deref_set_self _ pb nb (some { nb with adj := nb.adj ++ [pa] }) h1
    have h3 : deref ((g.heap.set pa (some { na with adj := na.adj ++ [pb] })).set pb
        (some { nb with adj := nb.adj ++ [pa] })) pa =
        some { na with adj := na.adj ++ [pb] } := by
      rw [deref_set_ne _ _ _ _ (Ne.symm hp)]
      exact deref_set_self g.heap pa na _ hna
    refine ⟨_, na.adj ++ [pb], nb.adj ++ [pa], rfl, rfl, ?_, ?_, ?_⟩
    · simp only [adjOf, ha, Option.some_bind, h3, Option.map_some']
    · simp only [adjOf, hb, Option.some_bind, h2, Option.map_some']
    · simp [hp]

/-- C4 at the driver's graph before any edge: `addEdge(1, 2)`. -/
theorem C4_addEdge_appends_witness :
    ∃ g1 la lb, addEdge demoVertices 1 2 = some g1 ∧ g1.nodes = demoVertices.nodes ∧
      adjOf g1 1 = some la ∧ adjOf g1 2 = some lb ∧
      la = (if 0 = 1 then ([] : List Nat) ++ [1] ++ [0] else [] ++ [1]) ∧
      lb = (if 0 = 1 then ([] : List Nat) ++ [1] ++ [0] else [] ++ [0]) ∧
      la.getLast? = some 1 ∧ lb.getLast? = some 0 ∧ 1 ∈ la ∧ 0 ∈ lb :=
  C4_addEdge_appends demoVertices 1 2 0 1
    { id := 1, data := "Node1", adj := [] } { id := 2, data := "Node2", adj := [] }
    (by decide) (by decide) (by decide) (by decide)

/-- What address reuse does to `removeEdge`: after `Graph(1, "a")`,
`addVertex(2, "b")`, `addEdge(1, 2)` twice and `removeVertex(2)`, the list of
vertex 1 still holds the address of the deleted node; when `new` hands that
address to `addVertex(3, "c")`, vertex 1 lists vertex 3 although vertex 3 does
not list vertex 1 and no `addEdge(1, 3)` was called.  Then `bfs(1)` writes the
value of vertex 3, and `removeEdge(3, 1)` changes the list of vertex 1 although
the node of vertex 1 is not in the list of vertex 3. -/
theorem removeEdge_after_address_reuse :
    (∀ pick : Nat,
      run (init 1 "a") [Op.addVertex pick 2 "b", Op.addEdge 1 2, Op.addEdge 1 2,
        Op.removeVertex 2, Op.addVertex 1 3 "c"] = some reuseGraph) ∧
    adjOf reuseGraph 1 = some [1] ∧ adjOf reuseGraph 3 = some [] ∧
    mapRead reuseGraph.nodes 1 = some 0 ∧ mapRead reuseGraph.nodes 3 = some 1 ∧
    bfs reuseGraph 1 = LoopResult.done (reuseGraph, ["a", "c"]) ∧
    (removeEdge reuseGraph 3 1).bind (fun g1 => adjOf g1 1) = some [] ∧
    removeEdge reuseGraph 3 1 ≠ some reuseGraph := by
  refine ⟨?_, by decide, by decide, by decide, by decide, by decide, by decide, by decide⟩
  intro pick
  simp only [run, step, Option.some_bind]
  rw [addVertex_pick (init 1 "a") (by decide) pick]
  decide

/-- The neighbour loop of `bfs`: the queue grows at its back by the neighbours
that were not visited, each once, `visited` grows by the same addresses, and
afterwards every neighbour is visited. -/
theorem visitNeighbours_spec (adj : List Nat) :
    ∀ (visited q : List Nat), ∃ fresh : List Nat,
      (visitNeighbours adj (visited, q)).2 = q ++ fresh ∧
      (∀ x, x ∈ (visitNeighbours adj (visited, q)).1 ↔ x ∈ visited ∨ x ∈ fresh) ∧
      fresh.Nodup ∧ (∀ x ∈ fresh, x ∉ visited ∧ x ∈ adj) ∧
      ∀ x ∈ adj, x ∈ (visitNeighbours adj (visited, q)).1 := by
  induction adj with
  | nil => intro visited q; exact ⟨[], by simp [visitNeighbours]⟩
  | cons y rest ih =>
    intro visited q
    by_cases hy : y ∈ visited
    · obtain ⟨fresh, h1, h2, h3, h4, h5⟩ := ih visited q
      have e : visitNeighbours (y :: rest) (visited, q) = visitNeighbours rest (visited, q) := by
        simp [visitNeighbours, hy]
      rw [e]
      refine ⟨fresh, h1, h2, h3, fun x hx => ⟨(h4 x hx).1, List.mem_cons_of_mem _ (h4 x hx).2⟩, ?_⟩
      intro x hx
      rcases List.mem_cons.mp hx with rfl | hx
      · exact (h2 x).mpr (Or.inl hy)
      · exact h5 x hx
    · obtain ⟨fresh, h1, h2, h3, h4, h5⟩ := ih (y :: visited) (q ++ [y])
      have e : visitNeighbours (y :: rest) (visited, q) =
          visitNeighbours rest (y :: visited, q ++ [y]) := by
        simp [visitNeighbours, hy]
      rw [e]
      refine ⟨y :: fresh, by rw [h1]; simp, ?_, ?_, ?_, ?_⟩
      · intro x
        rw [h2 x]
        simp only [List.mem_cons]
        tauto
      · refine List.nodup_cons.mpr ⟨fun hmem => ?_, h3⟩
        exact (h4 y hmem).1 (List.mem_cons_self _ _)
      · intro x hx
        rcases List.mem_cons.mp hx with rfl | hx
        · exact ⟨hy, List.mem_cons_self _ _⟩
        · exact ⟨fun hv => (h4 x hx).1 (List.mem_cons_of_mem _ hv),
            List.mem_cons_of_mem _ (h4 x hx).2⟩
      · intro x hx
        rcases List.mem_cons.mp hx with rfl | hx
        · exact (h2 x).mpr (Or.inl (List.mem_cons_self _ _))
        · exact h5 x hx

theorem length_le_of_nodup_of_lt (l : List Nat) (n : Nat) (hnd : l.Nodup)
    (hlt : ∀ x ∈ l, x < n) : l.length ≤ n := by
  have hsub : l ⊆ List.range n := fun x hx => List.mem_range.mpr (hlt x hx)
  have := (List.Nodup.subperm hnd hsub).length_le
  simpa using this

omit [LinearOrder Key] in
/-- The loop of `bfs`, from any state that satisfies the loop invariant and
with a bound above the number of cells not yet dequeued: either it ends, and
then the dequeued addresses are exactly those reachable from the start, each
once, the start first, and the output is their values; or it dereferences a
pointer that is reachable from the start and not live. -/
theorem bfsLoop_core (heap : List (Option (GraphNode Key T))) (ps : Nat) :
    ∀ (fuel : Nat) (processed q visited : List Nat) (out : List T),
      BfsInv heap ps processed q visited out →
      heap.length - processed.length < fuel →
      (∃ (order : List Nat) (out1 : List T),
        bfsLoop heap fuel q visited out = LoopResult.done out1 ∧
        order.map (valueAt heap) = out1.map some ∧ order.Nodup ∧
        order.head? = some ps ∧ ∀ p, p ∈ order ↔ Reach heap ps p) ∨
      (bfsLoop heap fuel q visited out = LoopResult.undefined ∧
        ∃ x, Reach heap ps x ∧ deref heap x = none) := by
  intro fuel
  induction fuel with
  | zero => intro processed q visited out _ hf; omega
  | succ fuel ih =>
    intro processed q visited out inv hf
    cases q with
    | nil =>
      left
      have hnd : processed.Nodup := by simpa using inv.nodup
      have hhead : processed.head? = some ps := by simpa using inv.head
      refine ⟨processed, out, by simp [bfsLoop], inv.values, hnd, hhead, fun p => ?_⟩
      constructor
      · intro hp
        exact inv.reach p ((inv.visited_iff p).mpr (Or.inl hp))
      · intro hp
        induction hp with
        | refl => exact List.mem_of_mem_head? hhead
        | tail _ hedge ihp =>
          rcases (inv.visited_iff _).mp (inv.closed _ ihp _ hedge) with h1 | h1
          · exact h1
          · simp at h1
    | cons curr rest =>
      have hcurr_vis : curr ∈ visited :=
        (inv.visited_iff curr).mpr (Or.inr (List.mem_cons_self _ _))
      cases hd : deref heap curr with
      | none =>
        right
        exact ⟨by simp [bfsLoop, hd], curr, inv.reach curr hcurr_vis, hd⟩
      | some node =>
        obtain ⟨fresh, h1, h2, h3, h4, h5⟩ := visitNeighbours_spec node.adj visited rest
        have hstep : bfsLoop heap (fuel + 1) (curr :: rest) visited out =
            bfsLoop heap fuel (visitNeighbours node.adj (visited, rest)).2
              (visitNeighbours node.adj (visited, rest)).1 (out ++ [node.data]) := by
          simp [bfsLoop, hd]
        have hlist : processed ++ [curr] ++ (rest ++ fresh) =
            (processed ++ curr :: rest) ++ fresh := by simp
        have hlist2 : processed ++ curr :: rest = (processed ++ [curr]) ++ rest := by simp
        have hnd2 : (processed ++ [curr]).Nodup := by
          have := inv.nodup
          rw [hlist2] at this
          exact List.Nodup.of_append_left this
        have hlive2 : ∀ x ∈ processed ++ [curr], x < heap.length := by
          intro x hx
          rcases List.mem_append.mp hx with hx | hx
          · exact inv.liveDone x hx
          · rw [List.mem_singleton.mp hx]; exact deref_lt heap curr node hd
        have hlen := length_le_of_nodup_of_lt _ _ hnd2 hlive2
        rw [List.length_append, List.length_singleton] at hlen
        have inv2 : BfsInv heap ps (processed ++ [curr])
            (visitNeighbours node.adj (visited, rest)).2
            (visitNeighbours node.adj (visited, rest)).1 (out ++ [node.data]) := by
          refine ⟨?_, ?_, ?_, ?_, ?_, ?_, hlive2⟩
          · simp [valueAt, hd, inv.values]
          · rw [h1, hlist]
            refine List.Nodup.append inv.nodup h3 ?_
            intro x hx hxf
            have hv : x ∈ visited := by
              rw [inv.visited_iff]
              exact List.mem_append.mp hx
            exact (h4 x hxf).1 hv
          · intro x
            rw [h2 x, h1, inv.visited_iff x]
            simp only [List.mem_append, List.mem_cons, List.mem_singleton, List.not_mem_nil,
              or_false]
            tauto
          · intro x hx
            rcases (h2 x).mp hx with hx | hx
            · exact inv.reach x hx
            · exact Relation.ReflTransGen.tail (inv.reach curr hcurr_vis)
                ⟨node, hd, (h4 x hx).2⟩
          · intro x hx y hedge
            rcases List.mem_append.mp hx with hx | hx
            · exact (h2 y).mpr (Or.inl (inv.closed x hx y hedge))
            · rw [List.mem_singleton.mp hx] at hedge
              obtain ⟨node1, hn1, hy⟩ := hedge
              rw [hd] at hn1
              cases hn1
              exact h5 y hy
          · rw [h1, hlist, List.head?_append, inv.head]
            rfl
        rw [hstep]
        exact ih _ _ _ _ inv2 (by rw [List.length_append, List.length_singleton]; omega)

omit [LinearOrder Key] in
/-- The loop invariant holds when `bfs` enters its loop. -/
theorem bfsInv_start (heap : List (Option (GraphNode Key T))) (ps : Nat) :
    BfsInv heap ps [] [ps] [ps] ([] : List T) := by
  refine ⟨rfl, by simp, by simp, ?_, by simp, rfl, by simp⟩
  intro x hx
  rw [List.mem_singleton.mp hx]
  exact Relation.ReflTransGen.refl

omit [LinearOrder Key] in
/-- The bound that `bfs` gives its loop is never used up. -/
theorem bfsLoop_finishes (heap : List (Option (GraphNode Key T))) (ps fuel : Nat)
    (hf : heap.length + 1 ≤ fuel) :
    bfsLoop heap fuel [ps] [ps] ([] : List T) ≠ LoopResult.unfinished := by
  rcases bfsLoop_core heap ps fuel [] [ps] [ps] [] (bfsInv_start heap ps)
    (by simp only [List.length_nil]; omega) with ⟨_, out1, h, _⟩ | ⟨h, _⟩
  · rw [h]; intro hc; cases hc
  · rw [h]; intro hc; cases hc

omit [LinearOrder Key] in
/-- A result of the loop of `bfs` other than `unfinished` is the result for
every larger bound too. -/
theorem bfsLoop_mono (heap : List (Option (GraphNode Key T))) :
    ∀ (fuel fuel1 : Nat) (q visited : List Nat) (out : List T),
      fuel ≤ fuel1 → bfsLoop heap fuel q visited out ≠ LoopResult.unfinished →
      bfsLoop heap fuel1 q visited out = bfsLoop heap fuel q visited out := by
  intro fuel
  induction fuel with
  | zero => intro fuel1 q visited out _ h; simp [bfsLoop] at h
  | succ fuel ih =>
    intro fuel1 q visited out hle h
    cases fuel1 with
    | zero => omega
    | succ fuel1 =>
      cases q with
      | nil => simp [bfsLoop]
      | cons curr rest =>
        cases hd : deref heap curr with
        | none => simp [bfsLoop, hd]
        | some node =>
          simp only [bfsLoop, hd] at h ⊢
          exact ih fuel1 _ _ _ (by omega) h

omit [LinearOrder Key] in
theorem wellFormed_entry (g : Graph Key T) (h : wellFormed g = true) (k : Key) (p : Nat)
    (hk : (k, some p) ∈ g.nodes) :
    ∃ node, deref g.heap p = some node ∧
      ∀ x ∈ node.adj, ∃ k1, (k1, some x) ∈ g.nodes := by
  unfold wellFormed at h
  have he := List.all_eq_true.mp h (k, some p) hk
  simp only [] at he
  cases hd : deref g.heap p with
  | none => simp [hd] at he
  | some node =>
    simp only [hd] at he
    refine ⟨node, rfl, fun x hx => ?_⟩
    have hx1 := List.all_eq_true.mp he x hx
    obtain ⟨⟨k1, v1⟩, hmem, hv⟩ := List.any_eq_true.mp hx1
    simp only [beq_iff_eq] at hv
    subst hv
    exact ⟨k1, hmem⟩

omit [LinearOrder Key] in
/-- In a well-formed graph, what can be reached from a vertex is a vertex. -/
theorem wellFormed_reach (g : Graph Key T) (h : wellFormed g = true) (k : Key) (ps p : Nat)
    (hk : (k, some ps) ∈ g.nodes) (hr : Reach g.heap ps p) :
    ∃ k1, (k1, some p) ∈ g.nodes := by
  induction hr with
  | refl => exact ⟨k, hk⟩
  | tail _ hedge ih =>
    obtain ⟨k0, hk0⟩ := ih
    obtain ⟨node, hn, hadj⟩ := wellFormed_entry g h k0 _ hk0
    obtain ⟨node1, hn1, hx⟩ := hedge
    rw [hn] at hn1
    cases hn1
    exact hadj _ hx

/-- C6: in a well-formed graph, `bfs` from a vertex `s` ends, for every bound
on the iterations above the number of cells of the free store and so for the
bound that `bfs` uses; the graph is as before, and the output is the values of
a list of nodes that starts with the node of `s`, has no node twice, and holds
exactly the nodes that can be reached from `s` through adjacency lists, all
of them vertices of the map. -/
theorem C6_bfs_visits_reachable (g : Graph Key T) (s : Key) (ps : Nat)
    (hwf : wellFormed g = true) (hs : mapRead g.nodes s = some ps) :
    ∃ (order : List Nat) (out : List T),
      (∀ fuel, g.heap.length + 1 ≤ fuel → bfsWith fuel g s = LoopResult.done (g, out)) ∧
      bfs g s = LoopResult.done (g, out) ∧
      order.map (valueAt g.heap) = out.map some ∧
      order.head? = some ps ∧ out.head?.map some = some (valueAt g.heap ps) ∧
      order.Nodup ∧
      (∀ p, p ∈ order ↔ Reach g.heap ps p) ∧
      ∀ p ∈ order, ∃ k, (k, some p) ∈ g.nodes := by
  have hmem := mem_of_mapRead g.nodes s ps hs
  have hloop : ∀ fuel, g.heap.length + 1 ≤ fuel →
      ∀ out, bfsLoop g.heap fuel [ps] [ps] [] = LoopResult.done out →
      bfsWith fuel g s = LoopResult.done (g, out) := by
    intro fuel _ out hout
    unfold bfsWith
    simp only [mapRead_mapTouch, hs, hout, mapTouch_of_mapRead g.nodes s ps hs]
  rcases bfsLoop_core g.heap ps (g.heap.length + 1) [] [ps] [ps] [] (bfsInv_start g.heap ps)
    (by simp only [List.length_nil]; omega) with
    ⟨order, out, hdone, hvalues, hnd, hhead, hiff⟩ | ⟨_, x, hx, hdead⟩
  · refine ⟨order, out, ?_, hloop _ (le_refl _) out hdone, hvalues, hhead, ?_, hnd, hiff, ?_⟩
    · intro fuel hf
      apply hloop fuel hf
      rw [bfsLoop_mono g.heap (g.heap.length + 1) fuel _ _ _ hf (by rw [hdone]; intro hc; cases hc)]
      exact hdone
    · have := congrArg List.head? hvalues
      rw [List.head?_map, List.head?_map, hhead] at this
      exact this.symm
    · intro p hp
      exact wellFormed_reach g hwf s ps p hmem ((hiff p).mp hp)
  · exfalso
    obtain ⟨k1, hk1⟩ := wellFormed_reach g hwf s ps x hmem hx
    obtain ⟨node, hn, _⟩ := wellFormed_entry g hwf k1 x hk1
    rw [hdead] at hn
    cases hn

/-- C6 at the driver's graph: `bfs(1)`. -/
theorem C6_bfs_visits_reachable_witness :
    ∃ (order : List Nat) (out : List String),
      (∀ fuel, demoGraph.heap.length + 1 ≤ fuel →
        bfsWith fuel demoGraph 1 = LoopResult.done (demoGraph, out)) ∧
      bfs demoGraph 1 = LoopResult.done (demoGraph, out) ∧
      order.map (valueAt demoGraph.heap) = out.map some ∧
      order.head? = some 0 ∧ out.head?.map some = some (valueAt demoGraph.heap 0) ∧
      order.Nodup ∧
      (∀ p, p ∈ order ↔ Reach demoGraph.heap 0 p) ∧
      ∀ p ∈ order, ∃ k, (k, some p) ∈ demoGraph.nodes :=
  C6_bfs_visits_reachable demoGraph 1 0 (by decide) (by decide)

/-- C1 (code at the failing input): in the graph `Graph(1, "Node1")` the key 2
is not a vertex, and each of `addEdge(2, 1)`, `addEdge(1, 2)`,
`removeEdge(2, 1)`, `removeVertex(2)` and `bfs(2)` leaves a null entry for 2 in
the vertex mapping, so that `size()` goes from 1 to 2 and the key set from
`[1]` to `[1, 2]`. -/
theorem C1_absent_key_call_adds_entry :
    hasVertex (init 1 "Node1") 2 = false ∧
    size (init 1 "Node1") = 1 ∧ keys (init 1 "Node1") = [1] ∧
    (addEdge (init 1 "Node1") 2 1).map size = some 2 ∧
    (addEdge (init 1 "Node1") 1 2).map size = some 2 ∧
    (removeEdge (init 1 "Node1") 2 1).map size = some 2 ∧
    (removeVertex (init 1 "Node1") 2).map size = some 2 ∧
    (removeVertex (init 1 "Node1") 2).map keys = some [1, 2] ∧
    bfs (init 1 "Node1") 2 =
      LoopResult.done
        ({ nodes := [(1, some 0), (2, none)],
           heap := [some { id := 1, data := "Node1", adj := [] }] }, []) := by
  decide

/-- C2 (code at the failing input): after `Graph(1, "a")`, `addVertex(2, "b")`
and `addEdge(1, 2)` twice, `removeVertex(2)` erases one of the two references to
vertex 2 (address 1) from the adjacency list of vertex 1: the list is `[1]`
afterwards, a pointer to the deleted node. -/
theorem C2_removeVertex_leaves_reference (pick : Nat) :
    run (init 1 "a")
        [Op.addVertex pick 2 "b", Op.addEdge 1 2, Op.addEdge 1 2, Op.removeVertex 2] =
      some { nodes := [(1, some 0)],
             heap := [some { id := 1, data := "a", adj := [1] }, none] } := by
  simp only [run, step, Option.some_bind]
  rw [addVertex_pick (init 1 "a") (by decide) pick]
  decide

/-- C5 (code at the failing input): after `Graph(1, "a")` and `addEdge(2, 1)`
the key 2 is not a vertex and `size()` is 2; `addVertex(2, "b")` then stores
the vertex in the entry that is already there and `size()` is still 2. -/
theorem C5_addVertex_size_unchanged (pick : Nat) :
    (run (init 1 "a") [Op.addEdge 2 1]).map (fun g => (hasVertex g 2, size g)) =
      some (false, 2) ∧
    (run (init 1 "a") [Op.addEdge 2 1, Op.addVertex pick 2 "b"]).map
        (fun g => (hasVertex g 2, size g, dataOf g 2)) =
      some (true, 2, some "b") := by
  refine ⟨by decide, ?_⟩
  have h1 : addEdge (init 1 "a") 2 1 = some nullEntryGraph := by decide
  simp only [run, step, h1, Option.some_bind, Option.map_some']
  rw [addVertex_pick nullEntryGraph (by decide) pick]
  decide

/-- C7: for `Graph(1)`, `addVertex` 2, 3, 4 and `addEdge` (1,2), (1,3), (2,4),
(3,4), `bfs(1)` writes the values of the vertices 1, 2, 3, 4 in this order,
each once; after `removeVertex(3)`, `bfs(1)` writes those of 1, 2, 4 and
`size()` is 3. -/
theorem C7_demo_scenario (pick2 pick3 pick4 : Nat) :
    run (init 1 "Node1") [Op.addVertex pick2 2 "Node2", Op.addVertex pick3 3 "Node3",
      Op.addVertex pick4 4 "Node4"] = some demoVertices ∧
    run demoVertices demoEdges = some demoGraph ∧
    bfs demoGraph 1 = LoopResult.done (demoGraph, ["Node1", "Node2", "Node3", "Node4"]) ∧
    size demoGraph = 4 ∧
    removeVertex demoGraph 3 = some demoGraphWithout3 ∧
    bfs demoGraphWithout3 1 =
      LoopResult.done (demoGraphWithout3, ["Node1", "Node2", "Node4"]) ∧
    size demoGraphWithout3 = 3 := by
  refine ⟨?_, by decide⟩
  have h2 : addVertex (init 1 "Node1") pick2 2 "Node2" =
      { nodes := [(1, some 0), (2, some 1)],
        heap := [some { id := 1, data := "Node1", adj := [] },
                 some { id := 2, data := "Node2", adj := [] }] } := by
    rw [addVertex_pick (init 1 "Node1") (by decide) pick2]
    decide
  simp only [run, step, Option.some_bind, h2]
  rw [addVertex_pick _ (by decide) pick3]
  have h3 : addVertex
      ({ nodes := [(1, some 0), (2, some 1)],
         heap := [some { id := 1, data := "Node1", adj := [] },
                  some { id := 2, data := "Node2", adj := [] }] } : Graph Nat String)
      2 3 "Node3" =
      { nodes := [(1, some 0), (2, some 1), (3, some 2)],
        heap := [some { id := 1, data := "Node1", adj := [] },
                 some { id := 2, data := "Node2", adj := [] },
                 some { id := 3, data := "Node3", adj := [] }] } := by
    decide
  simp only [List.length_cons, List.length_nil, Nat.zero_add, Nat.reduceAdd, h3]
  rw [addVertex_pick _ (by decide) pick4]
  decide

/-- C15 (code at the failing input): after `Graph(1, "a")`, `addVertex(2, "b")`,
`addEdge(1, 2)` twice and `removeVertex(2)`, a state reached without `bfs`, the
adjacency list of vertex 1 holds address 1, which is the deleted node: no key
of the map points to it and its cell is not live. -/
theorem C15_list_entry_is_no_vertex (pick : Nat) :
    run (init 1 "a")
        [Op.addVertex pick 2 "b", Op.addEdge 1 2, Op.addEdge 1 2, Op.removeVertex 2] =
      some danglingGraph ∧
    adjOf danglingGraph 1 = some [1] ∧
    deref danglingGraph.heap 1 = none ∧
    ∀ k : Nat, mapRead danglingGraph.nodes k ≠ some 1 := by
  refine ⟨?_, by decide, by decide, ?_⟩
  · simp only [run, step, Option.some_bind]
    rw [addVertex_pick (init 1 "a") (by decide) pick]
    decide
  intro k hk
  have hmem := mem_of_mapRead danglingGraph.nodes k 1 hk
  simp [danglingGraph] at hmem

/-- C18 (code at the failing input): after `Graph(1, "a")` and `addEdge(2, 1)`
the map holds a null entry for key 2; key 1 is a vertex, and `removeVertex(1)`
dereferences the null pointer of that entry in its loop over all entries: the
call has no defined result. -/
theorem C18_removeVertex_null_dereference :
    run (init 1 "a") [Op.addEdge 2 1] = some nullEntryGraph ∧
    mapFind nullEntryGraph.nodes 2 = some none ∧
    hasVertex nullEntryGraph 1 = true ∧
    removeVertex nullEntryGraph 1 = none := by
  decide

theorem removeEdge_mk (nodes : List (Key × Option Nat))
    (heap : List (Option (GraphNode Key T))) (a b : Key) (pa pb : Nat)
    (ha : mapRead nodes a = some pa) (hb : mapRead nodes b = some pb) :
    removeEdge { nodes := nodes, heap := heap } a b =
      (updateAdj heap pa (fun adj => adj.erase pb)).bind fun heap1 =>
      (updateAdj heap1 pb (fun adj => adj.erase pa)).bind fun heap2 =>
      some { nodes := nodes, heap := heap2 } :=
  removeEdge_of_present { nodes := nodes, heap := heap } a b pa pb ha hb

omit [LinearOrder Key] in
theorem getElem?_of_deref (heap : List (Option (GraphNode Key T))) (p : Nat)
    (node : GraphNode Key T) (h : deref heap p = some node) :
    heap[p]? = some (some node) := by
  unfold deref at h
  cases hh : heap[p]? with
  | none => simp [hh] at h
  | some x =>
    cases x with
    | none => simp [hh] at h
    | some n => simp [hh] at h; rw [h]

omit [LinearOrder Key] in
/-- Writing back to two cells what they held restores the free store, whatever
was written to them in between. -/
theorem set_restore (heap : List (Option (GraphNode Key T))) (pa pb : Nat)
    (na nb : GraphNode Key T) (x y : Option (GraphNode Key T))
    (hna : deref heap pa = some na) (hnb : deref heap pb = some nb) :
    (((heap.set pa x).set pb y).set pa (some na)).set pb (some nb) = heap := by
  have ha := getElem?_of_deref heap pa na hna
  have hb := getElem?_of_deref heap pb nb hnb
  have hla := deref_lt heap pa na hna
  have hlb := deref_lt heap pb nb hnb
  apply List.ext_getElem?
  intro q
  by_cases hqb : pb = q
  · subst hqb
    rw [List.getElem?_set_self (by simpa using hlb), hb]
  · rw [List.getElem?_set_ne hqb]
    by_cases hqa : pa = q
    · subst hqa
      rw [List.getElem?_set_self (by simpa using hla), ha]
    · rw [List.getElem?_set_ne hqa, List.getElem?_set_ne hqb, List.getElem?_set_ne hqa]

/-- C19: when `a` and `b` are vertices and neither node is in the list of the
other, `addEdge(a, b)` has a result on which `removeEdge(a, b)` gives back the
graph as it was, every adjacency list with its elements in their order; `a = b`
is included.  (Nothing more of well-formedness is used.) -/
theorem C19_removeEdge_undoes_addEdge (g : Graph Key T) (a b : Key) (pa pb : Nat)
    (na nb : GraphNode Key T)
    (ha : mapRead g.nodes a = some pa) (hb : mapRead g.nodes b = some pb)
    (hna : deref g.heap pa = some na) (hnb : deref g.heap pb = some nb)
    (hab : pb ∉ na.adj) (hba : pa ∉ nb.adj) :
    ∃ g1, addEdge g a b = some g1 ∧ removeEdge g1 a b = some g := by
  rw [addEdge_of_present g a b pa pb ha hb, updateAdj_of_deref _ _ _ _ hna]
  have e3 : ({ na with adj := na.adj } : GraphNode Key T) = na := rfl
  have e4 : ({ nb with adj := nb.adj } : GraphNode Key T) = nb := rfl
  by_cases hp : pa = pb
  · subst hp
    have hnab : na = nb := by rw [hna] at hnb; exact Option.some.inj hnb
    subst hnab
    have h1 := deref_set_self g.heap pa na (some { na with adj := na.adj ++ [pa] }) hna
    simp only [Option.some_bind, updateAdj_of_deref _ _ _ _ h1]
    refine ⟨_, rfl, ?_⟩
    have h2 := deref_set_self (g.heap.set pa (some { na with adj := na.adj ++ [pa] })) pa _
      (some { na with adj := na.adj ++ [pa] ++ [pa] }) h1
    rw [removeEdge_mk g.nodes _ a b pa pa ha hb]
    simp only [updateAdj_of_deref _ _ _ _ h2, Option.some_bind]
    have h3 := deref_set_self ((g.heap.set pa (some { na with adj := na.adj ++ [pa] })).set pa
      (some { na with adj := na.adj ++ [pa] ++ [pa] })) pa _
      (some { na with adj := (na.adj ++ [pa] ++ [pa]).erase pa }) h2
    simp only [updateAdj_of_deref _ _ _ _ h3, Option.some_bind]
    have e1 : (na.adj ++ [pa] ++ [pa]).erase pa = na.adj ++ [pa] := by
      rw [List.append_assoc, List.erase_append_right _ hab]
      simp
    have e2 : (na.adj ++ [pa]).erase pa = na.adj := by
      rw [List.erase_append_right _ hab]
      simp
    simp only [e1, e2, e3, List.set_set]
    rw [set_eq_self_of_deref g.heap pa na hna]
  · have h1 : deref (g.heap.set pa (some { na with adj := na.adj ++ [pb] })) pb = some nb := by
      rw [deref_set_ne _ _ _ _ hp]; exact hnb
    simp only [Option.some_bind, updateAdj_of_deref _ _ _ _ h1]
    refine ⟨_, rfl, ?_⟩
    have h2 := deref_set_self _ pb nb (some { nb with adj := nb.adj ++ [pa] }) h1
    have h3 : deref ((g.heap.set pa (some { na with adj := na.adj ++ [pb] })).set pb
        (some { nb with adj := nb.adj ++ [pa] })) pa =
        some { na with adj := na.adj ++ [pb] } := by
      rw [deref_set_ne _ _ _ _ (Ne.symm hp)]
      exact deref_set_self g.heap pa na _ hna
    rw [removeEdge_mk g.nodes _ a b pa pb ha hb]
    simp only [updateAdj_of_deref _ _ _ _ h3, Option.some_bind]
    have h4 : deref (((g.heap.set pa (some { na with adj := na.adj ++ [pb] })).set pb
        (some { nb with adj := nb.adj ++ [pa] })).set pa
        (some { na with adj := (na.adj ++ [pb]).erase pb })) pb =
        some { nb with adj := nb.adj ++ [pa] } := by
      rw [deref_set_ne _ _ _ _ hp]; exact h2
    simp only [updateAdj_of_deref _ _ _ _ h4, Option.some_bind]
    have e1 : (na.adj ++ [pb]).erase pb = na.adj := by
      rw [List.erase_append_right _ hab]
      simp
    have e2 : (nb.adj ++ [pa]).erase pa = nb.adj := by
      rw [List.erase_append_right _ hba]
      simp
    simp only [e1, e2, e3, e4]
    rw [set_restore g.heap pa pb na nb _ _ hna hnb]

/-- C19 at the driver's graph before any edge: `addEdge(1, 2)` and then
`removeEdge(1, 2)`. -/
theorem C19_removeEdge_undoes_addEdge_witness :
    ∃ g1, addEdge demoVertices 1 2 = some g1 ∧ removeEdge g1 1 2 = some demoVertices :=
  C19_removeEdge_undoes_addEdge demoVertices 1 2 0 1
    { id := 1, data := "Node1", adj := [] } { id := 2, data := "Node2", adj := [] }
    (by decide) (by decide) (by decide) (by decide) (by decide) (by decide)

omit [LinearOrder Key] in
/-- Two changes of adjacency lists, one after the other, both succeed when
both nodes are live. -/
theorem two_updates_exist (heap : List (Option (GraphNode Key T))) (pa pb : Nat)
    (na nb : GraphNode Key T) (f1 f2 : List Nat → List Nat)
    (hna : deref heap pa = some na) (hnb : deref heap pb = some nb) :
    ∃ heap1 heap2, updateAdj heap pa f1 = some heap1 ∧ updateAdj heap1 pb f2 = some heap2 := by
  have hu1 := updateAdj_of_deref heap pa f1 na hna
  obtain ⟨_, hd1⟩ := updateAdj_spec heap _ pa f1 hu1
  have hlive : ∃ node, deref (heap.set pa (some { na with adj := f1 na.adj })) pb = some node := by
    rw [hd1 pb]
    by_cases c : pb = pa
    · simp [c, hna]
    · simp [c, hnb]
  obtain ⟨node, hnode⟩ := hlive
  exact ⟨_, _, hu1, updateAdj_of_deref _ pb f2 node hnode⟩

/-- Two changes of adjacency lists, at the nodes `pa` and `pb`, leave
everything else of the graph as it was. -/
theorem sameExceptAdj_of_updates (g : Graph Key T) (pa pb : Nat)
    (f1 f2 : List Nat → List Nat) (heap1 heap2 : List (Option (GraphNode Key T)))
    (hu1 : updateAdj g.heap pa f1 = some heap1) (hu2 : updateAdj heap1 pb f2 = some heap2) :
    SameExceptAdj g { nodes := g.nodes, heap := heap2 } pa pb := by
  obtain ⟨_, hd1⟩ := updateAdj_rewrite _ _ _ _ hu1
  obtain ⟨_, hd2⟩ := updateAdj_rewrite _ _ _ _ hu2
  have hval : ∀ q, valueAt heap2 q = valueAt g.heap q := by
    intro q
    simp only [valueAt, hd2 q, hd1 q]
    cases deref g.heap q <;> rfl
  have hother : ∀ q, q ≠ pa → q ≠ pb → deref heap2 q = deref g.heap q := by
    intro q h1 h2
    rw [hd2 q, hd1 q]
    simp only [h1, h2, if_false]
    cases deref g.heap q <;> rfl
  refine ⟨rfl, rfl, rfl, rfl, hval, ?_, hother, ?_⟩
  · intro k
    simp only [dataOf]
    cases mapRead g.nodes k with
    | none => rfl
    | some q => exact hval q
  · intro k q hk h1 h2
    simp only [adjOf, hk, Option.some_bind, hother q h1 h2]

/-- C20: when `a` and `b` are vertices, `addEdge(a, b)` and `removeEdge(a, b)`
each have a result that differs from the graph at most in the adjacency lists
of the nodes of `a` and `b`: the map, `size()`, `isEmpty()`, the keys, the
value of every vertex and the adjacency list of every other vertex are the
same. -/
theorem C20_edge_calls_frame (g : Graph Key T) (a b : Key) (pa pb : Nat)
    (na nb : GraphNode Key T)
    (ha : mapRead g.nodes a = some pa) (hb : mapRead g.nodes b = some pb)
    (hna : deref g.heap pa = some na) (hnb : deref g.heap pb = some nb) :
    (∃ g1, addEdge g a b = some g1 ∧ SameExceptAdj g g1 pa pb) ∧
    (∃ g1, removeEdge g a b = some g1 ∧ SameExceptAdj g g1 pa pb) := by
  constructor
  · obtain ⟨heap1, heap2, hu1, hu2⟩ := two_updates_exist g.heap pa pb na nb
      (fun adj => adj ++ [pb]) (fun adj => adj ++ [pa]) hna hnb
    refine ⟨{ nodes := g.nodes, heap := heap2 }, ?_,
      sameExceptAdj_of_updates g pa pb _ _ heap1 heap2 hu1 hu2⟩
    rw [addEdge_of_present g a b pa pb ha hb, hu1, Option.some_bind, hu2, Option.some_bind]
  · obtain ⟨heap1, heap2, hu1, hu2⟩ := two_updates_exist g.heap pa pb na nb
      (fun adj => adj.erase pb) (fun adj => adj.erase pa) hna hnb
    refine ⟨{ nodes := g.nodes, heap := heap2 }, ?_,
      sameExceptAdj_of_updates g pa pb _ _ heap1 heap2 hu1 hu2⟩
    rw [removeEdge_of_present g a b pa pb ha hb, hu1, Option.some_bind, hu2, Option.some_bind]

/-- C20 at the driver's graph: `addEdge(1, 2)` and `removeEdge(1, 2)`. -/
theorem C20_edge_calls_frame_witness :
    (∃ g1, addEdge demoGraph 1 2 = some g1 ∧ SameExceptAdj demoGraph g1 0 1) ∧
    (∃ g1, removeEdge demoGraph 1 2 = some g1 ∧ SameExceptAdj demoGraph g1 0 1) :=
  C20_edge_calls_frame demoGraph 1 2 0 1
    { id := 1, data := "Node1", adj := [1, 2] } { id := 2, data := "Node2", adj := [0, 3] }
    (by decide) (by decide) (by decide) (by decide)

omit [LinearOrder Key] in
/-- One iteration of the loop of `bfs` keeps the loop invariant: `curr` is
dequeued, and `fresh`, the neighbours that were not visited, are queued. -/
theorem bfsInv_step (heap : List (Option (GraphNode Key T))) (ps curr : Nat)
    (processed rest visited fresh vis1 : List Nat) (out : List T) (node : GraphNode Key T)
    (inv : BfsInv heap ps processed (curr :: rest) visited out)
    (hd : deref heap curr = some node)
    (h2 : ∀ x, x ∈ vis1 ↔ x ∈ visited ∨ x ∈ fresh)
    (h3 : fresh.Nodup) (h4 : ∀ x ∈ fresh, x ∉ visited ∧ x ∈ node.adj)
    (h5 : ∀ x ∈ node.adj, x ∈ vis1) :
    BfsInv heap ps (processed ++ [curr]) (rest ++ fresh) vis1 (out ++ [node.data]) := by
  have hcurr_vis : curr ∈ visited :=
    (inv.visited_iff curr).mpr (Or.inr (List.mem_cons_self _ _))
  have hlist : processed ++ [curr] ++ (rest ++ fresh) =
      (processed ++ curr :: rest) ++ fresh := by simp
  refine ⟨?_, ?_, ?_, ?_, ?_, ?_, ?_⟩
  · simp [valueAt, hd, inv.values]
  · rw [hlist]
    refine List.Nodup.append inv.nodup h3 ?_
    intro x hx hxf
    have hv : x ∈ visited := by
      rw [inv.visited_iff]
      exact List.mem_append.mp hx
    exact (h4 x hxf).1 hv
  · intro x
    rw [h2 x, inv.visited_iff x]
    simp only [List.mem_append, List.mem_cons, List.mem_singleton, List.not_mem_nil,
      or_false]
    tauto
  · intro x hx
    rcases (h2 x).mp hx with hx | hx
    · exact inv.reach x hx
    · exact Relation.ReflTransGen.tail (inv.reach curr hcurr_vis) ⟨node, hd, (h4 x hx).2⟩
  · intro x hx y hedge
    rcases List.mem_append.mp hx with hx | hx
    · exact (h2 y).mpr (Or.inl (inv.closed x hx y hedge))
    · rw [List.mem_singleton.mp hx] at hedge
      obtain ⟨node1, hn1, hy⟩ := hedge
      rw [hd] at hn1
      cases hn1
      exact h5 y hy
  · rw [hlist, List.head?_append, inv.head]
    rfl
  · intro x hx
    rcases List.mem_append.mp hx with hx | hx
    · exact inv.liveDone x hx
    · rw [List.mem_singleton.mp hx]; exact deref_lt heap curr node hd

omit [LinearOrder Key] in
/-- One iteration of the loop of `bfs` keeps the levels in order, when the
nodes that are queued get the level above that of the dequeued node. -/
theorem bfsLevels_step (heap : List (Option (GraphNode Key T))) (ps curr : Nat)
    (processed rest visited fresh vis1 : List Nat) (out : List T) (node : GraphNode Key T)
    (lv : Nat → Nat)
    (inv : BfsInv heap ps processed (curr :: rest) visited out)
    (lev : BfsLevels heap ps processed (curr :: rest) visited lv)
    (hd : deref heap curr = some node)
    (h2 : ∀ x, x ∈ vis1 ↔ x ∈ visited ∨ x ∈ fresh)
    (h4 : ∀ x ∈ fresh, x ∉ visited ∧ x ∈ node.adj)
    (h5 : ∀ x ∈ node.adj, x ∈ vis1) :
    BfsLevels heap ps (processed ++ [curr]) (rest ++ fresh) vis1
      (fun x => if x ∈ fresh then lv curr + 1 else lv x) := by
  have hcurr_vis : curr ∈ visited :=
    (inv.visited_iff curr).mpr (Or.inr (List.mem_cons_self _ _))
  have hlist : processed ++ [curr] ++ (rest ++ fresh) =
      (processed ++ curr :: rest) ++ fresh := by simp
  have hold : ∀ x, x ∈ visited → (if x ∈ fresh then lv curr + 1 else lv x) = lv x := by
    intro x hx
    rw [if_neg (fun hf => (h4 x hf).1 hx)]
  have hnew : ∀ x, x ∈ fresh → (if x ∈ fresh then lv curr + 1 else lv x) = lv curr + 1 := by
    intro x hx
    rw [if_pos hx]
  have hvis : ∀ x, x ∈ processed ++ curr :: rest → x ∈ visited := by
    intro x hx
    rw [inv.visited_iff]
    exact List.mem_append.mp hx
  obtain ⟨_, hpq, hcross⟩ := List.pairwise_append.mp lev.sorted
  have hcurr_rest : ∀ b ∈ rest, lv curr ≤ lv b := (List.pairwise_cons.mp hpq).1
  have hwin : ∀ x ∈ curr :: rest, lv x ≤ lv curr + 1 := lev.window curr rfl
  have holdle : ∀ x, x ∈ processed ++ curr :: rest → lv x ≤ lv curr + 1 := by
    intro x hx
    rcases List.mem_append.mp hx with hx | hx
    · exact le_trans (hcross x hx curr (List.mem_cons_self _ _)) (Nat.le_succ _)
    · exact hwin x hx
  have hquele : ∀ x, x ∈ rest ++ fresh →
      (if x ∈ fresh then lv curr + 1 else lv x) ≤ lv curr + 1 ∧
      lv curr ≤ (if x ∈ fresh then lv curr + 1 else lv x) := by
    intro x hx
    by_cases hf : x ∈ fresh
    · rw [if_pos hf]; exact ⟨le_refl _, Nat.le_succ _⟩
    · rw [if_neg hf]
      have hr : x ∈ rest := by
        rcases List.mem_append.mp hx with hr | hr
        · exact hr
        · exact absurd hr hf
      exact ⟨hwin x (List.mem_cons_of_mem _ hr), hcurr_rest x hr⟩
  refine ⟨?_, ?_, ?_, ?_, ?_⟩
  · have hps : ps ∈ visited := hvis ps (List.mem_of_mem_head? inv.head)
    show (if ps ∈ fresh then lv curr + 1 else lv ps) = 0
    rw [hold ps hps]
    exact lev.start
  · rw [hlist]
    refine List.pairwise_append.mpr ⟨?_, ?_, ?_⟩
    · refine List.Pairwise.imp_of_mem ?_ lev.sorted
      intro a b ha hb hab
      show (if a ∈ fresh then lv curr + 1 else lv a) ≤ (if b ∈ fresh then lv curr + 1 else lv b)
      rw [hold a (hvis a ha), hold b (hvis b hb)]
      exact hab
    · apply List.pairwise_of_forall_mem_list
      intro a ha b hb
      show (if a ∈ fresh then lv curr + 1 else lv a) ≤ (if b ∈ fresh then lv curr + 1 else lv b)
      rw [hnew a ha, hnew b hb]
    · intro a ha b hb
      show (if a ∈ fresh then lv curr + 1 else lv a) ≤ (if b ∈ fresh then lv curr + 1 else lv b)
      rw [hold a (hvis a ha), hnew b hb]
      exact holdle a ha
  · intro h hh x hx
    have hmem : h ∈ rest ++ fresh := List.mem_of_mem_head? hh
    have h1 := (hquele x hx).1
    have h6 := (hquele h hmem).2
    show (if x ∈ fresh then lv curr + 1 else lv x) ≤ (if h ∈ fresh then lv curr + 1 else lv h) + 1
    omega
  · intro x hx
    show Walk heap ps x (if x ∈ fresh then lv curr + 1 else lv x)
    rcases (h2 x).mp hx with hx | hx
    · rw [hold x hx]; exact lev.walk x hx
    · rw [hnew x hx]
      exact Walk.tail (lev.walk curr hcurr_vis) ⟨node, hd, (h4 x hx).2⟩
  · intro x hx y hedge
    show (if y ∈ fresh then lv curr + 1 else lv y) ≤ (if x ∈ fresh then lv curr + 1 else lv x) + 1
    rcases List.mem_append.mp hx with hx | hx
    · have hxv : x ∈ visited := hvis x (List.mem_append_left _ hx)
      have hyv : y ∈ visited := inv.closed x hx y hedge
      rw [hold x hxv, hold y hyv]
      exact lev.edgeBound x hx y hedge
    · have hxc : x = curr := List.mem_singleton.mp hx
      subst hxc
      rw [hold x hcurr_vis]
      obtain ⟨node1, hn1, hy⟩ := hedge
      rw [hd] at hn1
      cases hn1
      by_cases hf : y ∈ fresh
      · rw [hnew y hf]
      · rw [if_neg hf]
        have hyv : y ∈ visited := by
          rcases (h2 y).mp (h5 y hy) with h | h
          · exact h
          · exact absurd h hf
        have : y ∈ processed ++ x :: rest := by
          rw [List.mem_append]
          exact (inv.visited_iff y).mp hyv
        exact holdle y this

omit [LinearOrder Key] in
theorem reach_of_walk (heap : List (Option (GraphNode Key T))) (p q n : Nat)
    (h : Walk heap p q n) : Reach heap p q := by
  induction h with
  | refl => exact Relation.ReflTransGen.refl
  | tail _ hedge ih => exact Relation.ReflTransGen.tail ih hedge

omit [LinearOrder Key] in
/-- The loop of `bfs` with levels: when it ends, the dequeued nodes are those
reachable from the start, each once, the level of each is its shortest-path
distance from the start, and levels do not go down along the order. -/
theorem bfsLoop_levels (heap : List (Option (GraphNode Key T))) (ps : Nat) :
    ∀ (fuel : Nat) (processed q visited : List Nat) (out : List T) (lv : Nat → Nat),
      BfsInv heap ps processed q visited out →
      BfsLevels heap ps processed q visited lv →
      heap.length - processed.length < fuel →
      (∃ (order : List Nat) (out1 : List T) (lv1 : Nat → Nat),
        bfsLoop heap fuel q visited out = LoopResult.done out1 ∧
        order.map (valueAt heap) = out1.map some ∧ order.Nodup ∧
        order.head? = some ps ∧ (∀ p, p ∈ order ↔ Reach heap ps p) ∧
        (∀ u ∈ order, IsDist heap ps u (lv1 u)) ∧
        order.Pairwise fun u v => lv1 u ≤ lv1 v) ∨
      (bfsLoop heap fuel q visited out = LoopResult.undefined ∧
        ∃ x, Reach heap ps x ∧ deref heap x = none) := by
  intro fuel
  induction fuel with
  | zero => intro processed q visited out lv _ _ hf; omega
  | succ fuel ih =>
    intro processed q visited out lv inv lev hf
    cases q with
    | nil =>
      left
      have hnd : processed.Nodup := by simpa using inv.nodup
      have hhead : processed.head? = some ps := by simpa using inv.head
      have hsorted : processed.Pairwise fun u v => lv u ≤ lv v := by simpa using lev.sorted
      have hmin : ∀ v n, Walk heap ps v n → v ∈ processed ∧ lv v ≤ n := by
        intro v n hw
        induction hw with
        | refl => exact ⟨List.mem_of_mem_head? hhead, by rw [lev.start]⟩
        | tail _ hedge ihw =>
          obtain ⟨hq, hle⟩ := ihw
          have hv := inv.closed _ hq _ hedge
          have hb := lev.edgeBound _ hq _ hedge
          rcases (inv.visited_iff _).mp hv with h1 | h1
          · exact ⟨h1, by omega⟩
          · simp at h1
      refine ⟨processed, out, lv, by simp [bfsLoop], inv.values, hnd, hhead, fun p => ?_, ?_,
        hsorted⟩
      · constructor
        · intro hp
          exact inv.reach p ((inv.visited_iff p).mpr (Or.inl hp))
        · intro hp
          induction hp with
          | refl => exact List.mem_of_mem_head? hhead
          | tail _ hedge ihp =>
            rcases (inv.visited_iff _).mp (inv.closed _ ihp _ hedge) with h1 | h1
            · exact h1
            · simp at h1
      · intro u hu
        exact ⟨lev.walk u ((inv.visited_iff u).mpr (Or.inl hu)), fun n hw => (hmin u n hw).2⟩
    | cons curr rest =>
      have hcurr_vis : curr ∈ visited :=
        (inv.visited_iff curr).mpr (Or.inr (List.mem_cons_self _ _))
      cases hd : deref heap curr with
      | none =>
        right
        exact ⟨by simp [bfsLoop, hd], curr, inv.reach curr hcurr_vis, hd⟩
      | some node =>
        obtain ⟨fresh, h1, h2, h3, h4, h5⟩ := visitNeighbours_spec node.adj visited rest
        have hstep : bfsLoop heap (fuel + 1) (curr :: rest) visited out =
            bfsLoop heap fuel (visitNeighbours node.adj (visited, rest)).2
              (visitNeighbours node.adj (visited, rest)).1 (out ++ [node.data]) := by
          simp [bfsLoop, hd]
        have inv2 := bfsInv_step heap ps curr processed rest visited fresh _ out node
          inv hd h2 h3 h4 h5
        have lev2 := bfsLevels_step heap ps curr processed rest visited fresh _ out node lv
          inv lev hd h2 h4 h5
        have hnd2 : (processed ++ [curr]).Nodup := List.Nodup.of_append_left inv2.nodup
        have hlen := length_le_of_nodup_of_lt _ _ hnd2 inv2.liveDone
        rw [List.length_append, List.length_singleton] at hlen
        rw [hstep, h1]
        exact ih _ _ _ _ _ inv2 lev2
          (by rw [List.length_append, List.length_singleton]; omega)

omit [LinearOrder Key] in
/-- The levels that hold when `bfs` enters its loop: level 0 for the start. -/
theorem bfsLevels_start (heap : List (Option (GraphNode Key T))) (ps : Nat) :
    BfsLevels heap ps [] [ps] [ps] (fun _ => 0) := by
  refine ⟨rfl, by simp, fun _ _ _ _ => Nat.zero_le _, ?_, by simp⟩
  intro x hx
  rw [List.mem_singleton.mp hx]
  exact Walk.refl

/-- C17: in a well-formed graph, `bfs` from a vertex `s` ends with the graph
as it was, and its output is the values of a list of nodes, the nodes that can
be reached from `s`, each once, in which a node that comes before another has
a shortest-path distance from `s` that is at most that of the other. -/
theorem C17_bfs_level_order (g : Graph Key T) (s : Key) (ps : Nat)
    (hwf : wellFormed g = true) (hs : mapRead g.nodes s = some ps) :
    ∃ (order : List Nat) (out : List T),
      bfs g s = LoopResult.done (g, out) ∧
      order.map (valueAt g.heap) = out.map some ∧ order.Nodup ∧
      (∀ p, p ∈ order ↔ Reach g.heap ps p) ∧
      order.Pairwise fun u v =>
        ∃ du dv, IsDist g.heap ps u du ∧ IsDist g.heap ps v dv ∧ du ≤ dv := by
  have hmem := mem_of_mapRead g.nodes s ps hs
  rcases bfsLoop_levels g.heap ps (g.heap.length + 1) [] [ps] [ps] [] (fun _ => 0)
    (bfsInv_start g.heap ps) (bfsLevels_start g.heap ps)
    (by simp only [List.length_nil]; omega) with
    ⟨order, out, lv, hdone, hvalues, hnd, _, hiff, hdist, hsorted⟩ | ⟨_, x, hx, hdead⟩
  · refine ⟨order, out, ?_, hvalues, hnd, hiff, ?_⟩
    · unfold bfs bfsWith
      simp only [mapRead_mapTouch, hs, hdone, mapTouch_of_mapRead g.nodes s ps hs]
    · refine List.Pairwise.imp_of_mem ?_ hsorted
      intro u v hu hv huv
      exact ⟨lv u, lv v, hdist u hu, hdist v hv, huv⟩
  · exfalso
    obtain ⟨k1, hk1⟩ := wellFormed_reach g hwf s ps x hmem hx
    obtain ⟨node, hn, _⟩ := wellFormed_entry g hwf k1 x hk1
    rw [hdead] at hn
    cases hn

/-- C17 at the driver's graph: `bfs(1)`. -/
theorem C17_bfs_level_order_witness :
    ∃ (order : List Nat) (out : List String),
      bfs demoGraph 1 = LoopResult.done (demoGraph, out) ∧
      order.map (valueAt demoGraph.heap) = out.map some ∧ order.Nodup ∧
      (∀ p, p ∈ order ↔ Reach demoGraph.heap 0 p) ∧
      order.Pairwise fun u v =>
        ∃ du dv, IsDist demoGraph.heap 0 u du ∧ IsDist demoGraph.heap 0 v dv ∧ du ≤ dv :=
  C17_bfs_level_order demoGraph 1 0 (by decide) (by decide)

end Graph

end GraphModel

/-! ## Theorems about the tree -/

namespace TreeModel

variable {T : Type}

mutual
/-- Induction over a node and the nodes below it. -/
theorem TreeNode.induct (P : TreeNode T → Prop)
    (h : ∀ d cs, (∀ c ∈ cs, P c) → P (TreeNode.mk d cs)) : ∀ node, P node
  | TreeNode.mk d cs => h d cs (TreeNode.induct_list P h cs)
/-- The list part of `TreeNode.induct`. -/
theorem TreeNode.induct_list (P : TreeNode T → Prop)
    (h : ∀ d cs, (∀ c ∈ cs, P c) → P (TreeNode.mk d cs)) :
    ∀ (cs : List (TreeNode T)), ∀ c ∈ cs, P c
  | [] => fun _ hc => absurd hc (List.not_mem_nil _)
  | x :: rest => fun c hc =>
    match List.mem_cons.mp hc with
    | Or.inl heq => heq ▸ TreeNode.induct P h x
    | Or.inr hmem => TreeNode.induct_list P h rest c hmem
end

/-- C12: on a tree that is not empty, `deleteNode(getRoot())` has a result in
which `size()` is 0 and `isEmpty()` is true; and `deleteNode` of the null
pointer leaves every tree as it is. -/
theorem C12_deleteNode_root_empties (t : Tree T) (h : t.isEmpty = false) :
    (∃ t1, t.deleteNode t.getRoot = some t1 ∧ t1.size = 0 ∧ t1.isEmpty = true) ∧
    ∀ t0 : Tree T, t0.deleteNode none = some t0 := by
  refine ⟨?_, fun t0 => rfl⟩
  cases t with
  | mk root =>
    cases root with
    | none => simp [Tree.isEmpty] at h
    | some r =>
      refine ⟨{ root := none }, ?_, rfl, rfl⟩
      simp [Tree.deleteNode, Tree.getRoot, Tree.nodeAt, TreeNode.nodeAt]

/-- C12 at the tree of the specification's scenario. -/
theorem C12_deleteNode_root_empties_witness :
    (∃ t1, Tree.scenarioTree.deleteNode Tree.scenarioTree.getRoot = some t1 ∧
      t1.size = 0 ∧ t1.isEmpty = true) ∧
    ∀ t0 : Tree String, t0.deleteNode none = some t0 :=
  C12_deleteNode_root_empties Tree.scenarioTree rfl

/-- C14 (code at the failing input): on the tree that `Tree("Root")` followed
by `deleteNode(getRoot())` leaves, which is empty, `insertRandom` dereferences
the null `root`, whatever `rand()` returns: the call has no defined result. -/
theorem C14_insertRandom_on_empty_tree (rand : Nat → Nat) :
    (Tree.init "Root").deleteNode (Tree.init "Root").getRoot = some { root := none } ∧
    Tree.isEmpty ({ root := none } : Tree String) = true ∧
    Tree.insertRandom ({ root := none } : Tree String) rand "RandomChild" =
      GraphModel.LoopResult.undefined :=
  ⟨rfl, rfl, rfl⟩

end TreeModel


/-! ## Theorems about the tree at pointer level -/

namespace TreeHeap

variable {T : Type}

open GraphModel (LoopResult)

theorem tree_deref_lt (heap : List (Option (TreeNode T))) (p : Nat) (node : TreeNode T)
    (h : deref heap p = some node) : p < heap.length := by
  rcases Nat.lt_or_ge p heap.length with hlt | hge
  · exact hlt
  · simp [deref, List.getElem?_eq_none hge] at h

theorem tree_deref_set (heap : List (Option (TreeNode T))) (p q : Nat)
    (x : Option (TreeNode T)) (hp : p < heap.length) :
    deref (heap.set p x) q = if q = p then x else deref heap q := by
  by_cases h : q = p
  · subst h
    simp [deref, List.getElem?_set_self hp]
  · simp [deref, h, List.getElem?_set_ne (Ne.symm h)]

theorem tree_deref_append (heap : List (Option (TreeNode T))) (x : Option (TreeNode T))
    (q : Nat) :
    deref (heap ++ [x]) q =
      if q < heap.length then deref heap q else if q = heap.length then x else none := by
  unfold deref
  by_cases h : q < heap.length
  · simp [h, List.getElem?_append_left h]
  · simp only [h, if_false]
    by_cases h2 : q = heap.length
    · subst h2; simp
    · have : heap.length + 1 ≤ q := by omega
      simp [h2, List.getElem?_eq_none, this]

/-- A child has a larger address than every node it is below. -/
theorem desc_le (heap : List (Option (TreeNode T)))
    (hmono : ∀ p c, ChildEdge heap p c → p < c) (p x : Nat) (h : Desc heap p x) : p ≤ x := by
  induction h with
  | refl => exact le_refl _
  | tail _ hedge ih => exact le_trans ih (le_of_lt (hmono _ _ hedge))

/-- The invariant that the operations keep gives a proper tree. -/
theorem properTree_of_inv (t : Tree T) (h : TreeInv t) : ProperTree t := by
  refine ⟨h.rootLive, h.onlyRoot, ?_, h.childOf, h.nodup, ?_, ?_, ?_⟩
  · intro c nc hc hroot
    cases hpar : nc.parent with
    | none => exact absurd (h.onlyRoot c nc hc hpar) hroot
    | some q =>
      obtain ⟨nq, hq, hmem⟩ := h.parentOf c nc q hc hpar
      refine ⟨q, nq, rfl, hq, hmem, ?_⟩
      intro q1 n1 hq1 hmem1
      obtain ⟨nc1, hc1, hp1⟩ := h.childOf q1 n1 c hq1 hmem1
      rw [hc] at hc1
      cases hc1
      rw [hpar] at hp1
      exact (Option.some.inj hp1).symm
  · intro r hr p n hp hmem
    obtain ⟨nr, hnr, hrpar⟩ := h.rootLive r hr
    obtain ⟨nr1, hnr1, hp1⟩ := h.childOf p n r hp hmem
    rw [hnr] at hnr1
    cases hnr1
    rw [hrpar] at hp1
    cases hp1
  · intro p hcycle
    have hlt : ∀ a b, Relation.TransGen (ChildEdge t.heap) a b → a < b := by
      intro a b hab
      induction hab with
      | single hedge => exact h.mono _ _ hedge
      | tail _ hedge ih => exact lt_trans ih (h.mono _ _ hedge)
    exact absurd (hlt p p hcycle) (lt_irrefl p)
  · intro r hr
    have key : ∀ (bound p : Nat) (n : TreeNode T), p < bound → deref t.heap p = some n →
        Desc t.heap r p := by
      intro bound
      induction bound with
      | zero => intro p n hp _; omega
      | succ bound ih =>
        intro p n hp hn
        cases hpar : n.parent with
        | none =>
          have := h.onlyRoot p n hn hpar
          rw [hr] at this
          cases this
          exact Relation.ReflTransGen.refl
        | some q =>
          obtain ⟨nq, hq, hmem⟩ := h.parentOf p n q hn hpar
          have hlt := h.mono q p ⟨nq, hq, hmem⟩
          exact Relation.ReflTransGen.tail (ih q nq (by omega) hq) ⟨nq, hq, hmem⟩
    intro p n hn
    exact key (p + 1) p n (Nat.lt_succ_self p) hn

theorem treeInv_init (rootData : T) : TreeInv (Tree.init rootData) := by
  have hd : ∀ p n, deref (Tree.init rootData).heap p = some n →
      p = 0 ∧ n = { data := rootData, children := [], parent := none } := by
    intro p n h
    cases p with
    | zero => simp [Tree.init, deref] at h; exact ⟨rfl, h.symm⟩
    | succ j => simp [Tree.init, deref] at h
  refine ⟨?_, ?_, ?_, ?_, ?_, ?_, ?_⟩
  · intro r hr
    simp only [Tree.init, Option.some.injEq] at hr
    subst hr
    exact ⟨_, rfl, rfl⟩
  · intro p n hp _
    rw [(hd p n hp).1]
    rfl
  · intro p n c hp hc
    rw [(hd p n hp).2] at hc
    simp at hc
  · intro c nc q hc hq
    rw [(hd c nc hc).2] at hq
    simp at hq
  · intro p n hp
    rw [(hd p n hp).2]
    simp
  · intro p c hedge
    obtain ⟨n, hn, hc⟩ := hedge
    rw [(hd p n hn).2] at hc
    simp at hc
  · intro hr
    simp [Tree.init] at hr

/-- The cells of the free store after `addChild` on the live node `p`. -/
theorem addChild_deref (heap : List (Option (TreeNode T))) (p : Nat) (n : TreeNode T)
    (data : T) (hp : deref heap p = some n) (x : Nat) :
    deref (heap.set p (some { n with children := n.children ++ [heap.length] })
        ++ [some { data := data, children := [], parent := some p }]) x =
      if x = heap.length then some { data := data, children := [], parent := some p }
      else if x = p then some { n with children := n.children ++ [heap.length] }
      else deref heap x := by
  have hlt := tree_deref_lt heap p n hp
  rw [tree_deref_append, List.length_set]
  by_cases h1 : x < heap.length
  · have h2 : x ≠ heap.length := by omega
    simp only [h1, if_true, h2, if_false]
    exact tree_deref_set heap p x _ hlt
  · simp only [h1, if_false]
    by_cases h2 : x = heap.length
    · simp [h2]
    · have h3 : x ≠ p := by omega
      have h4 : deref heap x = none := by
        simp [deref, List.getElem?_eq_none (by omega : heap.length ≤ x)]
      simp [h2, h3, h4]

theorem treeInv_addChild (t t1 : Tree T) (p child : Nat) (data : T) (h : TreeInv t)
    (ht : t.addChild p data = some (t1, child)) : TreeInv t1 := by
  unfold Tree.addChild at ht
  cases hp : deref t.heap p with
  | none => simp [hp] at ht
  | some n =>
    simp only [hp, Option.some.injEq, Prod.mk.injEq] at ht
    obtain ⟨ht1, _⟩ := ht
    subst ht1
    have hlt := tree_deref_lt t.heap p n hp
    have hd := addChild_deref t.heap p n data hp
    have hchild_lt : ∀ x node c, deref t.heap x = some node → c ∈ node.children →
        c < t.heap.length := by
      intro x node c hx hc
      obtain ⟨nc, hnc, _⟩ := h.childOf x node c hx hc
      exact tree_deref_lt _ _ _ hnc
    -- every former node is still there, with its parent, its children at the front
    have hkeep : ∀ x node, deref t.heap x = some node →
        ∃ node1, deref (t.heap.set p (some { n with children := n.children ++ [t.heap.length] })
            ++ [some { data := data, children := [], parent := some p }]) x = some node1 ∧
          node1.parent = node.parent ∧
          (node1.children = node.children ∨
            (x = p ∧ node1.children = node.children ++ [t.heap.length])) := by
      intro x node hx
      have hx1 : x ≠ t.heap.length := by
        have := tree_deref_lt _ _ _ hx; omega
      rw [hd x]
      by_cases hxp : x = p
      · subst hxp
        rw [hp] at hx
        cases hx
        exact ⟨{ n with children := n.children ++ [t.heap.length] },
          by simp only [hx1, if_false, if_true], rfl, Or.inr ⟨rfl, rfl⟩⟩
      · exact ⟨node, by simp only [hx1, hxp, if_false]; exact hx, rfl, Or.inl rfl⟩
    -- every node afterwards is the new one or a former one
    have hback : ∀ x node1, deref (t.heap.set p (some { n with children := n.children ++ [t.heap.length] })
            ++ [some { data := data, children := [], parent := some p }]) x = some node1 →
        (x = t.heap.length ∧ node1 = { data := data, children := [], parent := some p }) ∨
        (x ≠ t.heap.length ∧ ∃ node, deref t.heap x = some node ∧ node1.parent = node.parent ∧
          (node1.children = node.children ∨
            (x = p ∧ node1.children = node.children ++ [t.heap.length]))) := by
      intro x node1 hx
      rw [hd x] at hx
      by_cases hx1 : x = t.heap.length
      · left
        simp only [hx1, if_true, Option.some.injEq] at hx
        exact ⟨hx1, hx.symm⟩
      · right
        refine ⟨hx1, ?_⟩
        simp only [hx1, if_false] at hx
        by_cases hxp : x = p
        · simp only [hxp, if_true, Option.some.injEq] at hx
          subst hxp
          exact ⟨n, hp, by rw [← hx], Or.inr ⟨rfl, by rw [← hx]⟩⟩
        · simp only [hxp, if_false] at hx
          exact ⟨node1, hx, rfl, Or.inl rfl⟩
    refine ⟨?_, ?_, ?_, ?_, ?_, ?_, ?_⟩
    · intro r hr
      obtain ⟨nr, hnr, hpar⟩ := h.rootLive r hr
      obtain ⟨node1, hn1, hpar1, _⟩ := hkeep r nr hnr
      exact ⟨node1, hn1, by rw [hpar1, hpar]⟩
    · intro x node1 hx hpar
      rcases hback x node1 hx with ⟨_, hnew⟩ | ⟨_, node, hnode, hpar1, _⟩
      · rw [hnew] at hpar; simp at hpar
      · exact h.onlyRoot x node hnode (by rw [← hpar1]; exact hpar)
    · intro x node1 c hx hc
      rcases hback x node1 hx with ⟨_, hnew⟩ | ⟨_, node, hnode, _, hch⟩
      · rw [hnew] at hc; simp at hc
      · have hold : c ∈ node.children →
            ∃ nc, deref (t.heap.set p (some { n with children := n.children ++ [t.heap.length] })
              ++ [some { data := data, children := [], parent := some p }]) c = some nc ∧
              nc.parent = some x := by
          intro hc0
          obtain ⟨nc, hnc, hpc⟩ := h.childOf x node c hnode hc0
          obtain ⟨nc1, hnc1, hpar1, _⟩ := hkeep c nc hnc
          exact ⟨nc1, hnc1, by rw [hpar1, hpc]⟩
        rcases hch with hch | ⟨hxp, hch⟩
        · rw [hch] at hc; exact hold hc
        · rw [hch, List.mem_append, List.mem_singleton] at hc
          rcases hc with hc | hc
          · exact hold hc
          · subst hc
            exact ⟨{ data := data, children := [], parent := some p },
              by rw [hd]; simp, by rw [hxp]⟩
    · intro c nc1 q hc hq
      rcases hback c nc1 hc with ⟨hcl, hnew⟩ | ⟨_, nc, hnc, hpar1, _⟩
      · rw [hnew] at hq
        simp only [Option.some.injEq] at hq
        subst hq
        have hpl : p ≠ t.heap.length := by omega
        exact ⟨{ n with children := n.children ++ [t.heap.length] },
          by rw [hd]; simp only [hpl, if_false, if_true], by simp [hcl]⟩
      · obtain ⟨nq, hnq, hmem⟩ := h.parentOf c nc q hnc (by rw [← hpar1]; exact hq)
        obtain ⟨nq1, hnq1, _, hch⟩ := hkeep q nq hnq
        refine ⟨nq1, hnq1, ?_⟩
        rcases hch with hch | ⟨_, hch⟩
        · rw [hch]; exact hmem
        · rw [hch]; exact List.mem_append_left _ hmem
    · intro x node1 hx
      rcases hback x node1 hx with ⟨_, hnew⟩ | ⟨_, node, hnode, _, hch⟩
      · rw [hnew]; simp
      · rcases hch with hch | ⟨_, hch⟩
        · rw [hch]; exact h.nodup x node hnode
        · rw [hch]
          refine List.Nodup.append (h.nodup x node hnode) (by simp) ?_
          intro c hc hc1
          rw [List.mem_singleton] at hc1
          have := hchild_lt x node c hnode hc
          omega
    · intro x c hedge
      obtain ⟨node1, hx, hc⟩ := hedge
      rcases hback x node1 hx with ⟨_, hnew⟩ | ⟨_, node, hnode, _, hch⟩
      · rw [hnew] at hc; simp at hc
      · rcases hch with hch | ⟨hxp, hch⟩
        · rw [hch] at hc; exact h.mono x c ⟨node, hnode, hc⟩
        · rw [hch, List.mem_append, List.mem_singleton] at hc
          rcases hc with hc | hc
          · exact h.mono x c ⟨node, hnode, hc⟩
          · rw [hc, hxp]; exact hlt
    · intro hr
      have := h.empty hr p
      rw [hp] at this
      cases this

/-- The loop of `insertRandom` ends, if at all, at a live node. -/
theorem descend_done_live (heap : List (Option (TreeNode T))) (rand : Nat → Nat) :
    ∀ (fuel current calls leaf : Nat),
      Tree.descend heap rand fuel current calls = LoopResult.done leaf →
      ∃ n, deref heap leaf = some n := by
  intro fuel
  induction fuel with
  | zero => intro current calls leaf h; simp [Tree.descend] at h
  | succ fuel ih =>
    intro current calls leaf h
    simp only [Tree.descend] at h
    cases hd : deref heap current with
    | none => simp [hd] at h
    | some node =>
      simp only [hd] at h
      by_cases hleaf : node.children.isEmpty = true
      · simp only [hleaf, if_true, LoopResult.done.injEq] at h
        subst h
        exact ⟨node, hd⟩
      · simp only [hleaf] at h
        cases hnext : node.children[rand calls % node.children.length]? with
        | none => simp [hnext] at h
        | some next =>
          simp only [hnext] at h
          exact ih next (calls + 1) leaf h

theorem treeInv_insertRandomWith (fuel : Nat) (t t1 : Tree T) (rand : Nat → Nat) (data : T)
    (h : TreeInv t) (ht : Tree.insertRandomWith fuel t rand data = LoopResult.done t1) :
    TreeInv t1 := by
  unfold Tree.insertRandomWith at ht
  cases hr : t.root with
  | none => simp [hr] at ht
  | some r =>
    simp only [hr] at ht
    cases hl : Tree.descend t.heap rand fuel r 0 with
    | done leaf =>
      simp only [hl] at ht
      cases ha : t.addChild leaf data with
      | none => simp [ha] at ht
      | some res =>
        obtain ⟨t2, child⟩ := res
        simp only [ha, LoopResult.done.injEq] at ht
        subst ht
        exact treeInv_addChild t t2 leaf child data h ha
    | undefined => simp [hl] at ht
    | unfinished => simp [hl] at ht

/-- In a tree that satisfies the invariant, the loop of `insertRandom` ends
when its bound is above the number of cells after `current`. -/
theorem descend_defined (t : Tree T) (h : TreeInv t) (rand : Nat → Nat) :
    ∀ (fuel current calls : Nat) (n : TreeNode T),
      deref t.heap current = some n → t.heap.length - current < fuel →
      ∃ leaf, Tree.descend t.heap rand fuel current calls = LoopResult.done leaf := by
  intro fuel
  induction fuel with
  | zero => intro current calls n _ hf; omega
  | succ fuel ih =>
    intro current calls n hn hf
    simp only [Tree.descend, hn]
    by_cases hleaf : n.children.isEmpty = true
    · exact ⟨current, by simp [hleaf]⟩
    · simp only [hleaf]
      have hpos : 0 < n.children.length := by
        cases hc : n.children with
        | nil => simp [hc] at hleaf
        | cons c rest => simp
      have hidx : rand calls % n.children.length < n.children.length := Nat.mod_lt _ hpos
      have hget : n.children[rand calls % n.children.length]? =
          some (n.children[rand calls % n.children.length]) :=
        List.getElem?_eq_getElem hidx
      have hmem : n.children[rand calls % n.children.length] ∈ n.children :=
        List.getElem_mem _
      obtain ⟨nc, hnc, _⟩ := h.childOf current n _ hn hmem
      have hlt := h.mono current _ ⟨n, hn, hmem⟩
      have hcl := tree_deref_lt _ _ _ hnc
      simp only [hget]
      exact ih _ _ nc hnc (by omega)

/-- On a tree that is not empty and satisfies the invariant, `insertRandom` has
a result. -/
theorem insertRandom_defined (t : Tree T) (h : TreeInv t) (rand : Nat → Nat) (data : T)
    (r : Nat) (hr : t.root = some r) :
    ∃ t1, t.insertRandom rand data = LoopResult.done t1 := by
  obtain ⟨nr, hnr, _⟩ := h.rootLive r hr
  obtain ⟨leaf, hleaf⟩ := descend_defined t h rand (t.heap.length + 1) r 0 nr hnr (by omega)
  obtain ⟨nl, hnl⟩ := descend_done_live t.heap rand _ _ _ _ hleaf
  simp only [Tree.insertRandom, Tree.insertRandomWith, hr, hleaf, Tree.addChild, hnl]
  exact ⟨_, rfl⟩

/-- When every node has at most one parent, the nodes that a node is below
lie on one line. -/
theorem desc_chain (heap : List (Option (TreeNode T)))
    (huniq : ∀ u u1 v, ChildEdge heap u v → ChildEdge heap u1 v → u = u1)
    (a b x : Nat) (h1 : Desc heap a x) :
    Desc heap b x → Desc heap a b ∨ Desc heap b a := by
  induction h1 with
  | refl => intro h2; exact Or.inr h2
  | tail hay hyx ih =>
    intro h2
    rcases Relation.ReflTransGen.cases_tail h2 with heq | ⟨y1, hby1, hy1x⟩
    · left
      rw [← heq]
      exact Relation.ReflTransGen.tail hay hyx
    · have := huniq _ _ _ hyx hy1x
      subst this
      exact ih hby1

/-- Two different children of one node have no node below both. -/
theorem siblings_disjoint (heap : List (Option (TreeNode T)))
    (hmono : ∀ u v, ChildEdge heap u v → u < v)
    (huniq : ∀ u u1 v, ChildEdge heap u v → ChildEdge heap u1 v → u = u1)
    (p c c1 x : Nat) (hc : ChildEdge heap p c) (hc1 : ChildEdge heap p c1) (hne : c ≠ c1)
    (hx : Desc heap c x) (hx1 : Desc heap c1 x) : False := by
  have key : ∀ a b, ChildEdge heap p a → ChildEdge heap p b → a ≠ b → Desc heap a b → False := by
    intro a b ha hb hab hdesc
    rcases Relation.ReflTransGen.cases_tail hdesc with heq | ⟨y, hay, hyb⟩
    · exact hab heq.symm
    · have := huniq _ _ _ hyb hb
      subst this
      have h1 := desc_le heap hmono a y hay
      have h2 := hmono y a ha
      omega
  rcases desc_chain heap huniq c c1 x hx hx1 with h | h
  · exact key c c1 hc hc1 hne h
  · exact key c1 c hc1 hc (Ne.symm hne) h

/-- The destructor, run on a node below which all nodes are live, in a free
store where children have larger addresses than their parent, no node has two
parents and no child sequence holds a node twice: with a bound above the
number of cells after `p` it ends, and it frees exactly the node and the
nodes below it. -/
theorem destroy_spec :
    ∀ (fuel : Nat) (heap : List (Option (TreeNode T))) (p : Nat),
      (∀ u v, ChildEdge heap u v → u < v) →
      (∀ u u1 v, ChildEdge heap u v → ChildEdge heap u1 v → u = u1) →
      (∀ x n, deref heap x = some n → n.children.Nodup) →
      (∀ x, Desc heap p x → ∃ n, deref heap x = some n) →
      heap.length - p < fuel →
      ∃ heap1, destroy fuel heap p = LoopResult.done heap1 ∧
        heap1.length = heap.length ∧
        (∀ x, Desc heap p x → deref heap1 x = none) ∧
        (∀ x, ¬ Desc heap p x → deref heap1 x = deref heap x) := by
  intro fuel
  induction fuel with
  | zero => intro heap p _ _ _ _ hf; omega
  | succ fuel ih =>
    intro heap p hmono huniq hnodup hlive hf
    obtain ⟨n, hn⟩ := hlive p Relation.ReflTransGen.refl
    have hpl := tree_deref_lt heap p n hn
    have hedge : ∀ c, c ∈ n.children → ChildEdge heap p c := fun c hc => ⟨n, hn, hc⟩
    -- the loop over the children
    have hfold : ∀ (cs D : List Nat) (hj : List (Option (TreeNode T))),
        D ++ cs = n.children →
        hj.length = heap.length →
        (∀ x, (∃ c ∈ D, Desc heap c x) → deref hj x = none) →
        (∀ x, (¬ ∃ c ∈ D, Desc heap c x) → deref hj x = deref heap x) →
        ∃ hk, foldHeap (destroy fuel) hj cs = LoopResult.done hk ∧
          hk.length = heap.length ∧
          (∀ x, (∃ c ∈ n.children, Desc heap c x) → deref hk x = none) ∧
          (∀ x, (¬ ∃ c ∈ n.children, Desc heap c x) → deref hk x = deref heap x) := by
      intro cs
      induction cs with
      | nil =>
        intro D hj hD hlen hfreed hkept
        rw [List.append_nil] at hD
        subst hD
        exact ⟨hj, rfl, hlen, hfreed, hkept⟩
      | cons c rest ihcs =>
        intro D hj hD hlen hfreed hkept
        have hcmem : c ∈ n.children := by rw [← hD]; simp
        have hDmem : ∀ c1, c1 ∈ D → c1 ∈ n.children := by
          intro c1 h1; rw [← hD]; exact List.mem_append_left _ h1
        have hnd : (D ++ c :: rest).Nodup := by rw [hD]; exact hnodup p n hn
        have hcD : ∀ c1, c1 ∈ D → c1 ≠ c := by
          intro c1 h1 heq
          subst heq
          have := (List.nodup_append.mp hnd).2.2
          exact this h1 (List.mem_cons_self _ _)
        -- cells of `hj` are freed or as in `heap`
        have hsub : ∀ x node, deref hj x = some node → deref heap x = some node := by
          intro x node hx
          by_cases hfx : ∃ c1 ∈ D, Desc heap c1 x
          · rw [hfreed x hfx] at hx; cases hx
          · rw [hkept x hfx] at hx; exact hx
        have hedgesub : ∀ u v, ChildEdge hj u v → ChildEdge heap u v := by
          intro u v ⟨node, hu, hv⟩
          exact ⟨node, hsub u node hu, hv⟩
        have hdescsub : ∀ x, Desc hj c x → Desc heap c x := by
          intro x hx
          exact Relation.ReflTransGen.mono hedgesub hx
        have hbelow_kept : ∀ x, Desc heap c x → deref hj x = deref heap x := by
          intro x hx
          apply hkept
          rintro ⟨c1, hc1, hc1x⟩
          exact siblings_disjoint heap hmono huniq p c1 c x (hedge c1 (hDmem c1 hc1))
            (hedge c hcmem) (hcD c1 hc1) hc1x hx
        have hdescsup : ∀ x, Desc heap c x → Desc hj c x := by
          intro x hx
          induction hx with
          | refl => exact Relation.ReflTransGen.refl
          | tail hcy hyz ihx =>
            obtain ⟨node, hy, hz⟩ := hyz
            refine Relation.ReflTransGen.tail ihx ⟨node, ?_, hz⟩
            rw [hbelow_kept _ hcy]
            exact hy
        have hlive_c : ∀ x, Desc hj c x → ∃ node, deref hj x = some node := by
          intro x hx
          have hx1 := hdescsub x hx
          obtain ⟨node, hnode⟩ := hlive x (Relation.ReflTransGen.head (hedge c hcmem) hx1)
          exact ⟨node, by rw [hbelow_kept x hx1]; exact hnode⟩
        have hpc := hmono p c (hedge c hcmem)
        obtain ⟨hj1, hrun, hlen1, hfreed1, hkept1⟩ := ih hj c
          (fun u v huv => hmono u v (hedgesub u v huv))
          (fun u u1 v h1 h2 => huniq u u1 v (hedgesub u v h1) (hedgesub u1 v h2))
          (fun x node hx => hnodup x node (hsub x node hx))
          hlive_c (by rw [hlen]; omega)
        have hstep : foldHeap (destroy fuel) hj (c :: rest) =
            foldHeap (destroy fuel) hj1 rest := by
          simp only [foldHeap, hrun]
        rw [hstep]
        apply ihcs (D ++ [c]) hj1 (by rw [List.append_assoc]; exact hD) (hlen1.trans hlen)
        · rintro x ⟨c1, hc1, hc1x⟩
          rcases List.mem_append.mp hc1 with hc1 | hc1
          · by_cases hcx : Desc hj c x
            · exact hfreed1 x hcx
            · rw [hkept1 x hcx]
              exact hfreed x ⟨c1, hc1, hc1x⟩
          · rw [List.mem_singleton] at hc1
            subst hc1
            exact hfreed1 x (hdescsup x hc1x)
        · intro x hx
          have hx1 : ¬ Desc hj c x := by
            intro hcx
            exact hx ⟨c, by simp, hdescsub x hcx⟩
          have hx2 : ¬ ∃ c1 ∈ D, Desc heap c1 x := by
            rintro ⟨c1, hc1, hc1x⟩
            exact hx ⟨c1, List.mem_append_left _ hc1, hc1x⟩
          rw [hkept1 x hx1, hkept x hx2]
    obtain ⟨hk, hrun, hlenk, hfreedk, hkeptk⟩ := hfold n.children [] heap rfl rfl
      (by rintro x ⟨c, hc, _⟩; simp at hc) (fun _ _ => rfl)
    have hdesc_iff : ∀ x, Desc heap p x ↔ x = p ∨ ∃ c ∈ n.children, Desc heap c x := by
      intro x
      constructor
      · intro hx
        rcases Relation.ReflTransGen.cases_head hx with heq | ⟨c, hpc, hcx⟩
        · exact Or.inl heq.symm
        · obtain ⟨node, hnode, hc⟩ := hpc
          rw [hn] at hnode
          cases hnode
          exact Or.inr ⟨c, hc, hcx⟩
      · rintro (heq | ⟨c, hc, hcx⟩)
        · rw [heq]; exact Relation.ReflTransGen.refl
        · exact Relation.ReflTransGen.head (hedge c hc) hcx
    refine ⟨hk.set p none, ?_, by simp [hlenk], ?_, ?_⟩
    · simp only [destroy, hn, hrun]
    · intro x hx
      rw [tree_deref_set hk p x none (by rw [hlenk]; exact hpl)]
      by_cases hxp : x = p
      · simp [hxp]
      · simp only [hxp, if_false]
        rcases (hdesc_iff x).mp hx with heq | hc
        · exact absurd heq hxp
        · exact hfreedk x hc
    · intro x hx
      rw [tree_deref_set hk p x none (by rw [hlenk]; exact hpl)]
      have hxp : x ≠ p := fun heq => hx ((hdesc_iff x).mpr (Or.inl heq))
      simp only [hxp, if_false]
      exact hkeptk x (fun hc => hx ((hdesc_iff x).mpr (Or.inr hc)))

theorem inv_unique_parent (t : Tree T) (h : TreeInv t) :
    ∀ u u1 v, ChildEdge t.heap u v → ChildEdge t.heap u1 v → u = u1 := by
  rintro u u1 v ⟨nu, hu, hv⟩ ⟨nu1, hu1, hv1⟩
  obtain ⟨nv, hnv, hp⟩ := h.childOf u nu v hu hv
  obtain ⟨nv1, hnv1, hp1⟩ := h.childOf u1 nu1 v hu1 hv1
  rw [hnv] at hnv1
  cases hnv1
  rw [hp] at hp1
  exact Option.some.inj hp1

theorem inv_desc_live (t : Tree T) (h : TreeInv t) (p : Nat) (n : TreeNode T)
    (hp : deref t.heap p = some n) :
    ∀ x, Desc t.heap p x → ∃ nx, deref t.heap x = some nx := by
  intro x hx
  induction hx with
  | refl => exact ⟨n, hp⟩
  | tail _ hedge _ =>
    obtain ⟨ny, hy, hz⟩ := hedge
    obtain ⟨nz, hnz, _⟩ := h.childOf _ ny _ hy hz
    exact ⟨nz, hnz⟩

/-- A tree without root and without live node satisfies the invariant. -/
theorem treeInv_of_all_freed (heap : List (Option (TreeNode T)))
    (hall : ∀ x, deref heap x = none) : TreeInv { root := none, heap := heap } := by
  refine ⟨?_, ?_, ?_, ?_, ?_, ?_, fun _ => hall⟩
  · intro r hr; cases hr
  · intro p n hp; rw [hall p] at hp; cases hp
  · intro p n c hp; rw [hall p] at hp; cases hp
  · intro c nc q hc; rw [hall c] at hc; cases hc
  · intro p n hp; rw [hall p] at hp; cases hp
  · rintro p c ⟨n, hp, _⟩; rw [hall p] at hp; cases hp

/-- `deleteNode` on the root: the destructor frees every node. -/
theorem destroy_root (t : Tree T) (h : TreeInv t) (r fuel : Nat) (hr : t.root = some r)
    (hf : t.heap.length < fuel) :
    ∃ heap1, destroy fuel t.heap r = LoopResult.done heap1 ∧
      TreeInv ({ root := none, heap := heap1 } : Tree T) := by
  obtain ⟨nr, hnr, _⟩ := h.rootLive r hr
  obtain ⟨heap1, hrun, _, hfreed, hkept⟩ := destroy_spec fuel t.heap r h.mono
    (inv_unique_parent t h) h.nodup (inv_desc_live t h r nr hnr) (by omega)
  refine ⟨heap1, hrun, treeInv_of_all_freed heap1 ?_⟩
  intro x
  by_cases hx : Desc t.heap r x
  · exact hfreed x hx
  · rw [hkept x hx]
    cases hd : deref t.heap x with
    | none => rfl
    | some nx => exact absurd ((properTree_of_inv t h).connected r hr x nx hd) hx

/-- `deleteNode` on a node `p` that has the parent `q`: after `p` is erased from
the child sequence of `q`, the destructor frees `p` and what is below it, and
the invariant holds for what is left. -/
theorem destroy_child (t : Tree T) (h : TreeInv t) (p q fuel : Nat) (n nq : TreeNode T)
    (hp : deref t.heap p = some n) (hpar : n.parent = some q)
    (hq : deref t.heap q = some nq) (hf : t.heap.length < fuel) :
    ∃ heap1, destroy fuel
        (t.heap.set q (some { nq with children := nq.children.erase p })) p =
          LoopResult.done heap1 ∧
      TreeInv ({ root := t.root, heap := heap1 } : Tree T) := by
  have hql := tree_deref_lt t.heap q nq hq
  have hpq : p ∈ nq.children := by
    obtain ⟨nq1, hq1, hmem⟩ := h.parentOf p n q hp hpar
    rw [hq] at hq1
    cases hq1
    exact hmem
  have hqp : q < p := h.mono q p ⟨nq, hq, hpq⟩
  have huniq := inv_unique_parent t h
  -- the free store after the erasure
  have hd1 : ∀ x, deref (t.heap.set q (some { nq with children := nq.children.erase p })) x =
      if x = q then some { nq with children := nq.children.erase p } else deref t.heap x :=
    fun x => tree_deref_set t.heap q x _ hql
  have hsub1 : ∀ u v,
      ChildEdge (t.heap.set q (some { nq with children := nq.children.erase p })) u v →
      ChildEdge t.heap u v := by
    rintro u v ⟨nu, hu, hv⟩
    rw [hd1 u] at hu
    by_cases huq : u = q
    · simp only [huq, if_true, Option.some.injEq] at hu
      rw [← hu] at hv
      rw [huq]
      exact ⟨nq, hq, List.mem_of_mem_erase hv⟩
    · simp only [huq, if_false] at hu
      exact ⟨nu, hu, hv⟩
  have hdesc_same : ∀ x, Desc t.heap p x →
      Desc (t.heap.set q (some { nq with children := nq.children.erase p })) p x := by
    intro x hx
    induction hx with
    | refl => exact Relation.ReflTransGen.refl
    | tail hpy hyz ih =>
      rename_i y z
      obtain ⟨ny, hy, hz⟩ := hyz
      have hyq : y ≠ q := by
        have := desc_le t.heap h.mono p y hpy
        omega
      exact Relation.ReflTransGen.tail ih ⟨ny, by rw [hd1]; simp only [hyq, if_false]; exact hy, hz⟩
  obtain ⟨heap1, hrun, hlen, hfreed, hkept⟩ := destroy_spec fuel
    (t.heap.set q (some { nq with children := nq.children.erase p })) p
    (fun u v huv => h.mono u v (hsub1 u v huv))
    (fun u u1 v h1 h2 => huniq u u1 v (hsub1 u v h1) (hsub1 u1 v h2))
    (by
      intro x nx hx
      rw [hd1 x] at hx
      by_cases hxq : x = q
      · simp only [hxq, if_true, Option.some.injEq] at hx
        rw [← hx]
        exact List.Nodup.erase p (h.nodup q nq hq)
      · simp only [hxq, if_false] at hx
        exact h.nodup x nx hx)
    (by
      intro x hx
      have hx0 : Desc t.heap p x := Relation.ReflTransGen.mono hsub1 hx
      obtain ⟨nx, hnx⟩ := inv_desc_live t h p n hp x hx0
      have hxq : x ≠ q := by
        have := desc_le t.heap h.mono p x hx0
        omega
      exact ⟨nx, by rw [hd1]; simp only [hxq, if_false]; exact hnx⟩)
    (by simp only [List.length_set]; omega)
  refine ⟨heap1, hrun, ?_⟩
  -- what is freed
  have hfree : ∀ x, Desc t.heap p x → deref heap1 x = none :=
    fun x hx => hfreed x (hdesc_same x hx)
  have hkeep : ∀ x, ¬ Desc t.heap p x →
      deref heap1 x =
        if x = q then some { nq with children := nq.children.erase p } else deref t.heap x := by
    intro x hx
    rw [hkept x (fun hc => hx (Relation.ReflTransGen.mono hsub1 hc)), hd1 x]
  have hnq : ¬ Desc t.heap p q := by
    intro hc
    have := desc_le t.heap h.mono p q hc
    omega
  -- a node that is left: it was there, with the same parent, and its children
  -- are the former ones, without `p` for `q`
  have hback : ∀ x nx1, deref heap1 x = some nx1 →
      ¬ Desc t.heap p x ∧ ∃ nx, deref t.heap x = some nx ∧ nx1.parent = nx.parent ∧
        nx1.children = (if x = q then nx.children.erase p else nx.children) := by
    intro x nx1 hx
    by_cases hdx : Desc t.heap p x
    · rw [hfree x hdx] at hx; cases hx
    · refine ⟨hdx, ?_⟩
      rw [hkeep x hdx] at hx
      by_cases hxq : x = q
      · simp only [hxq, if_true, Option.some.injEq] at hx
        rw [hxq]
        refine ⟨nq, hq, by rw [← hx], ?_⟩
        rw [← hx]
        simp only [if_true]
      · simp only [hxq, if_false] at hx
        refine ⟨nx1, hx, rfl, ?_⟩
        simp only [hxq, if_false]
  have hfwd : ∀ x nx, deref t.heap x = some nx → ¬ Desc t.heap p x →
      ∃ nx1, deref heap1 x = some nx1 ∧ nx1.parent = nx.parent ∧
        nx1.children = (if x = q then nx.children.erase p else nx.children) := by
    intro x nx hx hdx
    rw [hkeep x hdx]
    by_cases hxq : x = q
    · subst hxq
      rw [hq] at hx
      cases hx
      exact ⟨{ nq with children := nq.children.erase p }, by simp only [if_true], rfl,
        by simp only [if_true]⟩
    · exact ⟨nx, by simp only [hxq, if_false]; exact hx, rfl, by simp only [hxq, if_false]⟩
  have hmem_sub : ∀ x (nx : TreeNode T) c,
      c ∈ (if x = q then nx.children.erase p else nx.children) → c ∈ nx.children := by
    intro x nx c hc
    split_ifs at hc
    · exact List.mem_of_mem_erase hc
    · exact hc
  refine ⟨?_, ?_, ?_, ?_, ?_, ?_, ?_⟩
  · intro r hr
    obtain ⟨nr, hnr, hrpar⟩ := h.rootLive r hr
    have hdr : ¬ Desc t.heap p r := by
      intro hc
      rcases Relation.ReflTransGen.cases_tail hc with heq | ⟨y, _, hyr⟩
      · rw [heq, hp] at hnr
        cases hnr
        rw [hpar] at hrpar
        cases hrpar
      · obtain ⟨ny, hy, hmem⟩ := hyr
        obtain ⟨nr1, hnr1, hp1⟩ := h.childOf y ny r hy hmem
        rw [hnr] at hnr1
        cases hnr1
        rw [hrpar] at hp1
        cases hp1
    obtain ⟨nr1, hnr1, hp1, _⟩ := hfwd r nr hnr hdr
    exact ⟨nr1, hnr1, by rw [hp1, hrpar]⟩
  · intro x nx1 hx hxpar
    obtain ⟨_, nx, hnx, hp1, _⟩ := hback x nx1 hx
    exact h.onlyRoot x nx hnx (by rw [← hp1]; exact hxpar)
  · intro x nx1 c hx hc
    obtain ⟨hdx, nx, hnx, _, hch⟩ := hback x nx1 hx
    rw [hch] at hc
    have hc0 := hmem_sub x nx c hc
    obtain ⟨nc, hnc, hcpar⟩ := h.childOf x nx c hnx hc0
    have hdc : ¬ Desc t.heap p c := by
      intro hcd
      rcases Relation.ReflTransGen.cases_tail hcd with heq | ⟨y, hpy, hyc⟩
      · -- `c` is `p`: then `x` is `q`, and `p` is not in the sequence without `p`
        subst heq
        rw [hp] at hnc
        cases hnc
        rw [hpar] at hcpar
        have hxq : q = x := Option.some.inj hcpar
        subst hxq
        rw [hq] at hnx
        cases hnx
        simp only [if_true] at hc
        exact List.Nodup.not_mem_erase (h.nodup q nq hq) hc
      · have := huniq _ _ _ hyc ⟨nx, hnx, hc0⟩
        subst this
        exact hdx hpy
    obtain ⟨nc1, hnc1, hp1, _⟩ := hfwd c nc hnc hdc
    exact ⟨nc1, hnc1, by rw [hp1, hcpar]⟩
  · intro c nc1 q1 hc hcpar
    obtain ⟨hdc, nc, hnc, hp1, _⟩ := hback c nc1 hc
    obtain ⟨nq1, hnq1, hmem⟩ := h.parentOf c nc q1 hnc (by rw [← hp1]; exact hcpar)
    have hdq1 : ¬ Desc t.heap p q1 := fun hcd =>
      hdc (Relation.ReflTransGen.tail hcd ⟨nq1, hnq1, hmem⟩)
    obtain ⟨nq2, hnq2, _, hch⟩ := hfwd q1 nq1 hnq1 hdq1
    refine ⟨nq2, hnq2, ?_⟩
    rw [hch]
    by_cases hq1 : q1 = q
    · simp only [hq1, if_true]
      have hcp : c ≠ p := by
        intro heq
        exact hdc (by rw [heq]; exact Relation.ReflTransGen.refl)
      exact (List.mem_erase_of_ne hcp).mpr hmem
    · simp only [hq1, if_false]
      exact hmem
  · intro x nx1 hx
    obtain ⟨_, nx, hnx, _, hch⟩ := hback x nx1 hx
    rw [hch]
    split_ifs
    · exact List.Nodup.erase p (h.nodup x nx hnx)
    · exact h.nodup x nx hnx
  · rintro x c ⟨nx1, hx, hc⟩
    obtain ⟨_, nx, hnx, _, hch⟩ := hback x nx1 hx
    rw [hch] at hc
    exact h.mono x c ⟨nx, hnx, hmem_sub x nx c hc⟩
  · intro hr
    have := h.empty hr p
    rw [hp] at this
    cases this

theorem treeInv_deleteNode (t t1 : Tree T) (node : Option Nat) (h : TreeInv t)
    (ht : t.deleteNode node = LoopResult.done t1) : TreeInv t1 := by
  unfold Tree.deleteNode Tree.deleteNodeWith at ht
  cases node with
  | none =>
    simp only [LoopResult.done.injEq] at ht
    rw [← ht]; exact h
  | some p =>
    simp only [] at ht
    cases hp : deref t.heap p with
    | none => simp [hp] at ht
    | some n =>
      simp only [hp] at ht
      cases hpar : n.parent with
      | none =>
        have hr := h.onlyRoot p n hp hpar
        obtain ⟨heap1, hrun, hinv⟩ := destroy_root t h p (t.heap.length + 1) hr (by omega)
        simp only [hpar, hr, hrun, LoopResult.done.injEq] at ht
        rw [← ht]; exact hinv
      | some q =>
        obtain ⟨nq, hq, hmem⟩ := h.parentOf p n q hp hpar
        obtain ⟨heap1, hrun, hinv⟩ :=
          destroy_child t h p q (t.heap.length + 1) n nq hp hpar hq (by omega)
        simp only [hpar, hq, hmem, if_true, hrun, LoopResult.done.injEq] at ht
        rw [← ht]; exact hinv

/-- In a tree that satisfies the invariant, `deleteNode` on the null pointer or
on a live node has a result. -/
theorem deleteNode_defined (t : Tree T) (h : TreeInv t) (node : Option Nat)
    (hnode : ∀ p, node = some p → ∃ n, deref t.heap p = some n) :
    ∃ t1, t.deleteNode node = LoopResult.done t1 := by
  unfold Tree.deleteNode Tree.deleteNodeWith
  cases node with
  | none => exact ⟨t, rfl⟩
  | some p =>
    obtain ⟨n, hp⟩ := hnode p rfl
    simp only [hp]
    cases hpar : n.parent with
    | none =>
      have hr := h.onlyRoot p n hp hpar
      obtain ⟨heap1, hrun, _⟩ := destroy_root t h p (t.heap.length + 1) hr (by omega)
      simp only [hr, hrun]
      exact ⟨_, rfl⟩
    | some q =>
      obtain ⟨nq, hq, hmem⟩ := h.parentOf p n q hp hpar
      obtain ⟨heap1, hrun, _⟩ :=
        destroy_child t h p q (t.heap.length + 1) n nq hp hpar hq (by omega)
      simp only [hq, hmem, if_true, hrun]
      exact ⟨_, rfl⟩

theorem treeInv_step (t t1 : Tree T) (c : Tree.Call T) (h : TreeInv t)
    (ht : Tree.step t c = some t1) : TreeInv t1 := by
  cases c with
  | addChild node data =>
    simp only [Tree.step, Option.map_eq_some'] at ht
    obtain ⟨⟨t2, child⟩, hadd, heq⟩ := ht
    simp only at heq
    subst heq
    exact treeInv_addChild t t2 node child data h hadd
  | insertAsChild parent data =>
    simp only [Tree.step, Tree.insertAsChild, Option.map_eq_some'] at ht
    obtain ⟨⟨t2, child⟩, hadd, heq⟩ := ht
    simp only at heq
    subst heq
    exact treeInv_addChild t t2 parent child data h hadd
  | insertRandom rand data =>
    simp only [Tree.step] at ht
    cases hi : t.insertRandom rand data with
    | done t2 =>
      simp only [hi, Option.some.injEq] at ht
      subst ht
      exact treeInv_insertRandomWith _ t t2 rand data h hi
    | undefined => simp [hi] at ht
    | unfinished => simp [hi] at ht
  | deleteNode node =>
    simp only [Tree.step] at ht
    cases hi : t.deleteNode node with
    | done t2 =>
      simp only [hi, Option.some.injEq] at ht
      subst ht
      exact treeInv_deleteNode t t2 node h hi
    | undefined => simp [hi] at ht
    | unfinished => simp [hi] at ht

theorem treeInv_run (cs : List (Tree.Call T)) :
    ∀ (t t1 : Tree T), TreeInv t → Tree.run t cs = some t1 → TreeInv t1 := by
  induction cs with
  | nil =>
    intro t t1 h ht
    simp only [Tree.run, Option.some.injEq] at ht
    subst ht
    exact h
  | cons c rest ih =>
    intro t t1 h ht
    simp only [Tree.run] at ht
    cases hs : Tree.step t c with
    | none => simp [hs] at ht
    | some t0 =>
      simp only [hs, Option.some_bind] at ht
      exact ih t0 t1 (treeInv_step t t0 c h hs) ht

/-- C16: every tree state that the constructor followed by `addChild`,
`insertAsChild`, `insertRandom` and `deleteNode` calls with a defined result
produces is a proper tree: the root is the only live node with a null parent,
every other live node has as `parent` the one node whose child sequence
contains it, each node is in that sequence once, no node is below itself, and
every live node is the root or below it. -/
theorem C16_reachable_is_proper_tree (t : Tree T) (h : Tree.Reachable t) : ProperTree t := by
  obtain ⟨rootData, cs, hrun⟩ := h
  exact properTree_of_inv t (treeInv_run cs _ t (treeInv_init rootData) hrun)

/-- C16 at the end of the driver: the tree after the five `addChild` calls,
`insertRandom` with `rand()` returning 0, and `deleteNode(child2)`. -/
theorem C16_reachable_is_proper_tree_witness : ProperTree demoTreeEnd :=
  C16_reachable_is_proper_tree demoTreeEnd
    ⟨"Root", [Tree.Call.addChild 0 "Child1", Tree.Call.addChild 0 "Child2",
      Tree.Call.addChild 1 "GrandChild1", Tree.Call.addChild 1 "GrandChild2",
      Tree.Call.addChild 2 "GrandChild3", Tree.Call.insertRandom (fun _ => 0) "RandomChild",
      Tree.Call.deleteNode (some 2)], by decide⟩

end TreeHeap
